import Mathlib

/-!
# Verification of the Boggle core of `Uninformed-Search` (`src/Uninformed/search.py`)

This file gives a shallow embedding, in Lean 4, of the Boggle word-finding core
of the repository: the sorted word list with binary-searched prefix ranges
(`Wordlist`), the grid adjacency table (`boggle_neighbors` / `exact_sqrt`), the
recursive backtracking word finder (`BoggleFinder.set_board` / `find` / `score`),
and the hill-climbing grid optimizer (`boggle_hill_climbing` / `mutate_boggle`).

Python strings are modelled as `List Char`, compared lexicographically by code
point exactly as Python compares `str` values.  Python's `bisect.bisect_left`
and `bisect.bisect` (= `bisect_right`) are modelled by the same binary-search
algorithm the library implements.  Fallible operations (Python exceptions:
`assert` in `exact_sqrt`, `IndexError` on list indexing in `score`) are
modelled with `Option`.  The recursion of `find` is bounded with explicit fuel;
the Python recursion depth is at most `len(board) + 1`, so any fuel of at least
`len(board) + 2` reproduces the Python behaviour.
-/

namespace Boggle

/-- Lexicographic strict comparison of `List Char`, by code point: the model of
Python's `<` on `str` values (a proper non-empty extension of a list is greater;
otherwise the first differing character decides). -/
def wlt : List Char → List Char → Bool
  | _, [] => false
  | [], _ :: _ => true
  | a :: as, b :: bs => if a < b then true else if b < a then false else wlt as bs

/-- `swith p w` models Python's `w.startswith(p)`: `p` is an initial segment
of `w`. -/
def swith : List Char → List Char → Bool
  | [], _ => true
  | _ :: _, [] => false
  | a :: ps, b :: ws => a == b && swith ps ws

theorem wlt_irrefl (a : List Char) : wlt a a = false := by
  induction a with
  | nil => rfl
  | cons c cs ih => simp [wlt, ih]

theorem wlt_trans : ∀ {a b c : List Char}, wlt a b = true → wlt b c = true → wlt a c = true
  | _, [], _, hab, _ => by simp [wlt] at hab
  | _, _ :: _, [], _, hbc => by simp [wlt] at hbc
  | [], b :: bs, c :: cs, _, _ => by simp [wlt]
  | a :: as, b :: bs, c :: cs, hab, hbc => by
    simp only [wlt] at hab hbc ⊢
    rcases lt_trichotomy a b with h1 | h1 | h1
    · rcases lt_trichotomy b c with h2 | h2 | h2
      · simp [lt_trans h1 h2]
      · subst h2; simp [h1]
      · simp [h2, not_lt_of_lt h2] at hbc
    · subst h1
      rcases lt_trichotomy a c with h2 | h2 | h2
      · simp [h2]
      · subst h2
        simp only [lt_irrefl, if_false] at hab hbc ⊢
        exact wlt_trans hab hbc
      · simp [h2, not_lt_of_lt h2] at hbc
    · simp [h1, not_lt_of_lt h1] at hab

theorem wlt_conn : ∀ {a b : List Char}, wlt a b = false → wlt b a = false → a = b
  | [], [], _, _ => rfl
  | [], _ :: _, hab, _ => by simp [wlt] at hab
  | _ :: _, [], _, hba => by simp [wlt] at hba
  | a :: as, b :: bs, hab, hba => by
    simp only [wlt] at hab hba
    rcases lt_trichotomy a b with h1 | h1 | h1
    · simp [h1] at hab
    · subst h1
      simp only [lt_irrefl, if_false] at hab hba
      rw [wlt_conn hab hba]
    · simp [h1] at hba

theorem wlt_total (a b : List Char) : wlt a b = true ∨ a = b ∨ wlt b a = true := by
  rcases h1 : wlt a b with _ | _
  · rcases h2 : wlt b a with _ | _
    · exact Or.inr (Or.inl (wlt_conn h1 h2))
    · exact Or.inr (Or.inr rfl)
  · exact Or.inl rfl

theorem wlt_asymm {a b : List Char} (h : wlt a b = true) : wlt b a = false := by
  rcases h2 : wlt b a with _ | _
  · rfl
  · have := wlt_trans h h2
    rw [wlt_irrefl] at this
    exact absurd this (by simp)

/-- `a ≤ b` and `b < c` imply `a < c` for the word order. -/
theorem wlt_of_le_of_lt {a b c : List Char} (hab : wlt b a = false) (hbc : wlt b c = true) :
    wlt a c = true := by
  rcases wlt_total a b with h | h | h
  · exact wlt_trans h hbc
  · subst h; exact hbc
  · rw [h] at hab; exact absurd hab (by simp)

/-- `a < b` and `b ≤ c` imply `a < c` for the word order. -/
theorem wlt_of_lt_of_le {a b c : List Char} (hab : wlt a b = true) (hbc : wlt c b = false) :
    wlt a c = true := by
  rcases wlt_total b c with h | h | h
  · exact wlt_trans hab h
  · subst h; exact hab
  · rw [h] at hbc; exact absurd hbc (by simp)

theorem swith_refl (p : List Char) : swith p p = true := by
  induction p with
  | nil => rfl
  | cons c cs ih => simp [swith, ih]

/-- A word that starts with `p` is at least `p` in the word order. -/
theorem swith_ge : ∀ {p w : List Char}, swith p w = true → wlt w p = false
  | [], [], _ => rfl
  | [], _ :: _, _ => rfl
  | _ :: _, [], h => by simp [swith] at h
  | a :: ps, b :: ws, h => by
    simp only [swith, Bool.and_eq_true, beq_iff_eq] at h
    obtain ⟨rfl, h2⟩ := h
    simp [wlt, swith_ge h2]

/-- A word `u` lying (in the word order) between `p` and some word starting with
`p` itself starts with `p`. -/
theorem swith_of_between : ∀ {p u w : List Char}, swith p w = true →
    wlt u p = false → wlt w u = false → swith p u = true
  | [], _, _, _, _, _ => rfl
  | _ :: _, _, [], hw, _, _ => by simp [swith] at hw
  | _ :: _, [], _ :: _, _, hu, _ => by simp [wlt] at hu
  | a :: ps, e :: us, b :: ws, hw, hu, huw => by
    simp only [swith, Bool.and_eq_true, beq_iff_eq] at hw ⊢
    obtain ⟨rfl, hw2⟩ := hw
    simp only [wlt] at hu huw
    rcases lt_trichotomy e a with h1 | h1 | h1
    · simp [h1] at hu
    · subst h1
      simp only [lt_irrefl, if_false] at hu huw
      exact ⟨rfl, swith_of_between hw2 hu huw⟩
    · simp [h1, not_lt_of_lt h1] at huw

/-- `swith` is transitive along extension: if `p` starts `q` and `q` starts `w`
then `p` starts `w`. -/
theorem swith_trans : ∀ {p q w : List Char},
    swith p q = true → swith q w = true → swith p w = true
  | [], _, _, _, _ => rfl
  | _ :: _, [], _, hpq, _ => by simp [swith] at hpq
  | _ :: _, _ :: _, [], _, hqw => by simp [swith] at hqw
  | a :: ps, b :: qs, c :: ws, hpq, hqw => by
    simp only [swith, Bool.and_eq_true, beq_iff_eq] at hpq hqw ⊢
    obtain ⟨rfl, h1⟩ := hpq
    obtain ⟨rfl, h2⟩ := hqw
    exact ⟨rfl, swith_trans h1 h2⟩

theorem swith_append (p rest : List Char) : swith p (p ++ rest) = true := by
  induction p with
  | nil => rfl
  | cons c cs ih => simp [swith, ih]

/-- Model of Python's `bisect.bisect_left(a, x, lo, hi)`: binary search for the
leftmost insertion point of `x` in `a[lo:hi]`.  The recursion is driven by an
explicit counter `fuel`; each step strictly shrinks `hi - lo`, so the wrapper
`bisectLeft`, which supplies `hi - lo`, computes the full binary search.
(Python indexes eagerly; our claims only use `hi ≤ len a`, where `getD` is
real indexing.) -/
def bisectLeftGo (a : List (List Char)) (x : List Char) : Nat → Nat → Nat → Nat
  | 0, lo, _ => lo
  | fuel + 1, lo, hi =>
    if lo < hi then
      let mid := (lo + hi) / 2
      if wlt (a.getD mid []) x then bisectLeftGo a x fuel (mid + 1) hi
      else bisectLeftGo a x fuel lo mid
    else lo

/-- `bisect.bisect_left(a, x, lo, hi)`. -/
def bisectLeft (a : List (List Char)) (x : List Char) (lo hi : Nat) : Nat :=
  bisectLeftGo a x (hi - lo) lo hi

/-- Model of Python's `bisect.bisect(a, x, lo, hi)` (= `bisect_right`), fueled
in the same way. -/
def bisectRightGo (a : List (List Char)) (x : List Char) : Nat → Nat → Nat → Nat
  | 0, lo, _ => lo
  | fuel + 1, lo, hi =>
    if lo < hi then
      let mid := (lo + hi) / 2
      if wlt x (a.getD mid []) then bisectRightGo a x fuel lo mid
      else bisectRightGo a x fuel (mid + 1) hi
    else lo

/-- `bisect.bisect(a, x, lo, hi)` (Python's `bisect_right`). -/
def bisectRight (a : List (List Char)) (x : List Char) (lo hi : Nat) : Nat :=
  bisectRightGo a x (hi - lo) lo hi

/-- Sortedness of the stored word list, in indexed form: no later entry is
strictly below an earlier one. -/
def SortedW (ws : List (List Char)) : Prop :=
  ∀ k1 k2, k1 < k2 → k2 < ws.length → wlt (ws.getD k2 []) (ws.getD k1 []) = false

theorem bisectLeftGo_bounds (a : List (List Char)) (x : List Char) :
    ∀ fuel lo hi, lo ≤ hi →
      lo ≤ bisectLeftGo a x fuel lo hi ∧ bisectLeftGo a x fuel lo hi ≤ hi := by
  intro fuel
  induction fuel with
  | zero => intro lo hi h; simp [bisectLeftGo]; omega
  | succ fuel ih =>
    intro lo hi h
    rw [bisectLeftGo]
    by_cases hlt : lo < hi
    · rw [if_pos hlt]
      by_cases hm : wlt (a.getD ((lo + hi) / 2) []) x = true
      · rw [if_pos hm]
        have := ih ((lo + hi) / 2 + 1) hi (by omega)
        omega
      · rw [if_neg hm]
        have := ih lo ((lo + hi) / 2) (by omega)
        omega
    · rw [if_neg hlt]; omega

theorem bisectLeftGo_lower (a : List (List Char)) (x : List Char) (hs : SortedW a) :
    ∀ fuel lo hi, hi - lo ≤ fuel → hi ≤ a.length →
      ∀ k, lo ≤ k → k < bisectLeftGo a x fuel lo hi → wlt (a.getD k []) x = true := by
  intro fuel
  induction fuel with
  | zero => intro lo hi hf hlen k hk1 hk2; simp [bisectLeftGo] at hk2; omega
  | succ fuel ih =>
    intro lo hi hf hlen k hk1 hk2
    rw [bisectLeftGo] at hk2
    by_cases hlt : lo < hi
    · rw [if_pos hlt] at hk2
      by_cases hm : wlt (a.getD ((lo + hi) / 2) []) x = true
      · simp only [hm, if_true] at hk2
        rcases Nat.lt_or_ge k ((lo + hi) / 2 + 1) with hk | hk
        · rcases Nat.lt_or_ge k ((lo + hi) / 2) with hk3 | hk3
          · exact wlt_of_le_of_lt (hs k ((lo + hi) / 2) hk3 (by omega)) hm
          · have : k = (lo + hi) / 2 := by omega
            subst this; exact hm
        · exact ih ((lo + hi) / 2 + 1) hi (by omega) hlen k hk hk2
      · simp only [hm, if_false] at hk2
        exact ih lo ((lo + hi) / 2) (by omega) (by omega) k hk1 hk2
    · rw [if_neg hlt] at hk2; omega

theorem bisectLeftGo_upper (a : List (List Char)) (x : List Char) (hs : SortedW a) :
    ∀ fuel lo hi, hi - lo ≤ fuel → hi ≤ a.length →
      ∀ k, bisectLeftGo a x fuel lo hi ≤ k → k < hi → wlt (a.getD k []) x = false := by
  intro fuel
  induction fuel with
  | zero => intro lo hi hf hlen k hk1 hk2; simp [bisectLeftGo] at hk1; omega
  | succ fuel ih =>
    intro lo hi hf hlen k hk1 hk2
    rw [bisectLeftGo] at hk1
    by_cases hlt : lo < hi
    · rw [if_pos hlt] at hk1
      by_cases hm : wlt (a.getD ((lo + hi) / 2) []) x = true
      · simp only [hm, if_true] at hk1
        exact ih ((lo + hi) / 2 + 1) hi (by omega) hlen k hk1 hk2
      · simp only [hm, if_false] at hk1
        rcases Nat.lt_or_ge k ((lo + hi) / 2) with hk | hk
        · exact ih lo ((lo + hi) / 2) (by omega) (by omega) k hk1 hk
        · rcases hq : wlt (a.getD k []) x with _ | _
          · rfl
          · rcases Nat.eq_or_lt_of_le hk with hk3 | hk3
            · rw [← hk3] at hq; exact absurd hq hm
            · have := wlt_of_le_of_lt (hs ((lo + hi) / 2) k hk3 (by omega)) hq
              exact absurd this hm
    · rw [if_neg hlt] at hk1; omega

theorem bisectRightGo_bounds (a : List (List Char)) (x : List Char) :
    ∀ fuel lo hi, lo ≤ hi →
      lo ≤ bisectRightGo a x fuel lo hi ∧ bisectRightGo a x fuel lo hi ≤ hi := by
  intro fuel
  induction fuel with
  | zero => intro lo hi h; simp [bisectRightGo]; omega
  | succ fuel ih =>
    intro lo hi h
    rw [bisectRightGo]
    by_cases hlt : lo < hi
    · rw [if_pos hlt]
      by_cases hm : wlt x (a.getD ((lo + hi) / 2) []) = true
      · rw [if_pos hm]
        have := ih lo ((lo + hi) / 2) (by omega)
        omega
      · rw [if_neg hm]
        have := ih ((lo + hi) / 2 + 1) hi (by omega)
        omega
    · rw [if_neg hlt]; omega

theorem bisectRightGo_lower (a : List (List Char)) (x : List Char) (hs : SortedW a) :
    ∀ fuel lo hi, hi - lo ≤ fuel → hi ≤ a.length →
      ∀ k, lo ≤ k → k < bisectRightGo a x fuel lo hi → wlt x (a.getD k []) = false := by
  intro fuel
  induction fuel with
  | zero => intro lo hi hf hlen k hk1 hk2; simp [bisectRightGo] at hk2; omega
  | succ fuel ih =>
    intro lo hi hf hlen k hk1 hk2
    rw [bisectRightGo] at hk2
    by_cases hlt : lo < hi
    · rw [if_pos hlt] at hk2
      by_cases hm : wlt x (a.getD ((lo + hi) / 2) []) = true
      · simp only [hm, if_true] at hk2
        exact ih lo ((lo + hi) / 2) (by omega) (by omega) k hk1 hk2
      · simp only [hm, if_false] at hk2
        rcases Nat.lt_or_ge k ((lo + hi) / 2 + 1) with hk | hk
        · rcases Nat.lt_or_ge k ((lo + hi) / 2) with hk3 | hk3
          · rcases hq : wlt x (a.getD k []) with _ | _
            · rfl
            · have := wlt_of_lt_of_le hq (hs k ((lo + hi) / 2) hk3 (by omega))
              exact absurd this hm
          · have : k = (lo + hi) / 2 := by omega
            subst this
            simpa using hm
        · exact ih ((lo + hi) / 2 + 1) hi (by omega) hlen k hk hk2
    · rw [if_neg hlt] at hk2; omega

theorem bisectRightGo_upper (a : List (List Char)) (x : List Char) (hs : SortedW a) :
    ∀ fuel lo hi, hi - lo ≤ fuel → hi ≤ a.length →
      ∀ k, bisectRightGo a x fuel lo hi ≤ k → k < hi → wlt x (a.getD k []) = true := by
  intro fuel
  induction fuel with
  | zero => intro lo hi hf hlen k hk1 hk2; simp [bisectRightGo] at hk1; omega
  | succ fuel ih =>
    intro lo hi hf hlen k hk1 hk2
    rw [bisectRightGo] at hk1
    by_cases hlt : lo < hi
    · rw [if_pos hlt] at hk1
      by_cases hm : wlt x (a.getD ((lo + hi) / 2) []) = true
      · simp only [hm, if_true] at hk1
        rcases Nat.lt_or_ge k ((lo + hi) / 2) with hk | hk
        · exact ih lo ((lo + hi) / 2) (by omega) (by omega) k hk1 hk
        · rcases Nat.eq_or_lt_of_le hk with hk3 | hk3
          · exact hk3 ▸ hm
          · exact wlt_of_lt_of_le hm (hs ((lo + hi) / 2) k hk3 (by omega))
      · simp only [hm, if_false] at hk1
        exact ih ((lo + hi) / 2 + 1) hi (by omega) hlen k hk1 hk2
    · rw [if_neg hlt] at hk1; omega

theorem bisectLeft_bounds (a : List (List Char)) (x : List Char) :
    ∀ lo hi, lo ≤ hi → lo ≤ bisectLeft a x lo hi ∧ bisectLeft a x lo hi ≤ hi :=
  fun lo hi h => bisectLeftGo_bounds a x (hi - lo) lo hi h

theorem bisectLeft_lower (a : List (List Char)) (x : List Char) (hs : SortedW a) :
    ∀ lo hi, hi ≤ a.length →
      ∀ k, lo ≤ k → k < bisectLeft a x lo hi → wlt (a.getD k []) x = true :=
  fun lo hi hlen k hk1 hk2 =>
    bisectLeftGo_lower a x hs (hi - lo) lo hi (le_refl _) hlen k hk1 hk2

theorem bisectLeft_upper (a : List (List Char)) (x : List Char) (hs : SortedW a) :
    ∀ lo hi, hi ≤ a.length →
      ∀ k, bisectLeft a x lo hi ≤ k → k < hi → wlt (a.getD k []) x = false :=
  fun lo hi hlen k hk1 hk2 =>
    bisectLeftGo_upper a x hs (hi - lo) lo hi (le_refl _) hlen k hk1 hk2

theorem bisectRight_bounds (a : List (List Char)) (x : List Char) :
    ∀ lo hi, lo ≤ hi → lo ≤ bisectRight a x lo hi ∧ bisectRight a x lo hi ≤ hi :=
  fun lo hi h => bisectRightGo_bounds a x (hi - lo) lo hi h

theorem bisectRight_lower (a : List (List Char)) (x : List Char) (hs : SortedW a) :
    ∀ lo hi, hi ≤ a.length →
      ∀ k, lo ≤ k → k < bisectRight a x lo hi → wlt x (a.getD k []) = false :=
  fun lo hi hlen k hk1 hk2 =>
    bisectRightGo_lower a x hs (hi - lo) lo hi (le_refl _) hlen k hk1 hk2

theorem bisectRight_upper (a : List (List Char)) (x : List Char) (hs : SortedW a) :
    ∀ lo hi, hi ≤ a.length →
      ∀ k, bisectRight a x lo hi ≤ k → k < hi → wlt x (a.getD k []) = true :=
  fun lo hi hlen k hk1 hk2 =>
    bisectRightGo_upper a x hs (hi - lo) lo hi (le_refl _) hlen k hk1 hk2


/-- The non-strict word order used for sorting: `a ≤ b`. -/
def wleR : List Char → List Char → Prop := fun a b => wlt b a = false

instance : DecidableRel wleR := fun _ _ => instDecidableEqBool _ _

instance : IsTotal (List Char) wleR := by
  constructor
  intro a b
  rcases wlt_total a b with h | h | h
  · exact Or.inl (wlt_asymm h)
  · subst h; exact Or.inl (wlt_irrefl a)
  · exact Or.inr (wlt_asymm h)

instance : IsTrans (List Char) wleR := by
  constructor
  intro a b c hab hbc
  have hab' : wlt b a = false := hab
  have hbc' : wlt c b = false := hbc
  show wlt c a = false
  rcases hq : wlt c a with _ | _
  · rfl
  · have h1 : wlt c b = true := wlt_of_lt_of_le hq hab'
    rw [hbc'] at h1
    simp at h1

/-- The word sequence a `Wordlist` is built from (`Wordlist.__init__`): the
input tokens (`file.read().upper().split()` — already uppercased per token),
filtered to those of length at least `min_len`, then sorted
(`self.words.sort()`, ascending lexicographic, modelled by insertion sort
under the same order). -/
def wordsOf (input : List (List Char)) (minLen : Nat) : List (List Char) :=
  List.insertionSort wleR
    ((input.map (List.map Char.toUpper)).filter (fun w => minLen ≤ w.length))

/-- The dictionary of `search.py`'s `Wordlist`: it owns the sorted word
sequence (`self.words`); the per-letter `bounds` and the `lookup` operation
are modelled as functions over it. -/
structure Wordlist where
  words : List (List Char)

/-- `Wordlist(file, min_len)`. -/
def mkWordlist (input : List (List Char)) (minLen : Nat) : Wordlist :=
  ⟨wordsOf input minLen⟩

/-- `self.bounds[c] = (bisect.bisect(words, c), bisect.bisect(words, chr(ord(c)+1)))`,
computed in `Wordlist.__init__` for each letter `c` of `ALPHABET`; modelled as a
function of `c` (it agrees with the stored dictionary on those keys). -/
def Wordlist.bounds (wl : Wordlist) (c : Char) : Nat × Nat :=
  (bisectRight wl.words [c] 0 wl.words.length,
   bisectRight wl.words [Char.ofNat (c.toNat + 1)] 0 wl.words.length)

/-- `Wordlist.lookup(prefix, lo=0, hi=None)`: binary-search `words[lo:hi]` with
`bisect_left`; if the word found there exists and starts with the query, return
its index and whether it equals the query exactly, else `(None, False)`. -/
def Wordlist.lookup (wl : Wordlist) (pfx : List Char) (lo : Nat) (hi : Option Nat) :
    Option Nat × Bool :=
  let ws := wl.words
  let hiv := hi.getD ws.length
  let i := bisectLeft ws pfx lo hiv
  if i < ws.length && swith pfx (ws.getD i []) then
    (some i, ws.getD i [] == pfx)
  else (none, false)

/-- `Wordlist.__contains__(word)` is `lookup(word)[1]` (with the default range). -/
def Wordlist.containsW (wl : Wordlist) (w : List Char) : Bool :=
  (wl.lookup w 0 none).2

theorem getD_eq_get (l : List (List Char)) (k : Nat) (h : k < l.length) :
    l.getD k [] = l.get ⟨k, h⟩ := by
  simp [List.getD_eq_getElem?_getD, List.getElem?_eq_getElem h]

theorem sortedW_wordsOf (input : List (List Char)) (minLen : Nat) :
    SortedW (wordsOf input minLen) := by
  intro k1 k2 h12 h2
  have hs : List.Sorted wleR (wordsOf input minLen) :=
    List.sorted_insertionSort wleR _
  rw [getD_eq_get _ k2 h2, getD_eq_get _ k1 (by omega)]
  exact hs.rel_get_of_lt h12

theorem mem_wordsOf {input : List (List Char)} {minLen : Nat} {w : List Char} :
    w ∈ wordsOf input minLen ↔
      w ∈ (input.map (List.map Char.toUpper)).filter (fun w => minLen ≤ w.length) :=
  (List.perm_insertionSort wleR _).mem_iff

theorem length_of_mem_wordsOf {input : List (List Char)} {minLen : Nat} {w : List Char}
    (h : w ∈ wordsOf input minLen) : minLen ≤ w.length := by
  rw [mem_wordsOf] at h
  have := List.of_mem_filter h
  simpa using this

/-- Central `lookup` lemma: if some index `idxw` of the allowed range holds a
word `w` starting with the query `pfx`, then `lookup` succeeds, returning an
index of the range no greater than `idxw` whose word starts with `pfx` and is
at most `w` in the word order. -/
theorem lookup_succeeds (wl : Wordlist) (hs : SortedW wl.words) {pfx w : List Char}
    {lo hi idxw : Nat} (hhi : hi ≤ wl.words.length) (h1 : lo ≤ idxw) (h2 : idxw < hi)
    (hw : wl.words.getD idxw [] = w) (hsw : swith pfx w = true) :
    ∃ i, wl.lookup pfx lo (some hi) = (some i, (wl.words.getD i [] == pfx))
      ∧ lo ≤ i ∧ i ≤ idxw ∧ swith pfx (wl.words.getD i []) = true
      ∧ wlt w (wl.words.getD i []) = false
      ∧ i = bisectLeft wl.words pfx lo hi := by
  have hb := bisectLeft_bounds wl.words pfx lo hi (by omega)
  set i := bisectLeft wl.words pfx lo hi with hidef
  have hile : i ≤ idxw := by
    by_contra hgt
    have := bisectLeft_lower wl.words pfx hs lo hi hhi idxw h1 (by omega)
    rw [hw] at this
    rw [swith_ge hsw] at this
    simp at this
  have hlew : wlt w (wl.words.getD i []) = false := by
    rcases Nat.eq_or_lt_of_le hile with he | hlt
    · rw [he, hw]; exact wlt_irrefl w
    · rw [← hw]; exact hs i idxw hlt (by omega)
  have hgep : wlt (wl.words.getD i []) pfx = false :=
    bisectLeft_upper wl.words pfx hs lo hi hhi i (le_refl i) (by omega)
  have hswi : swith pfx (wl.words.getD i []) = true :=
    swith_of_between hsw hgep hlew
  refine ⟨i, ?_, hb.1, hile, hswi, hlew, hidef⟩
  rw [Wordlist.lookup]
  simp only [← hidef, Option.getD_some]
  rw [if_pos]
  simp only [hswi, Bool.and_true]
  simp only [decide_eq_true_eq]
  omega

/-- When the target word occurs at an in-range index and the query is the word
itself, `lookup` reports an exact hit. -/
theorem lookup_exact (wl : Wordlist) (hs : SortedW wl.words) {w : List Char}
    {lo hi idxw : Nat} (hhi : hi ≤ wl.words.length) (h1 : lo ≤ idxw) (h2 : idxw < hi)
    (hw : wl.words.getD idxw [] = w) :
    ∃ i, wl.lookup w lo (some hi) = (some i, true) ∧ lo ≤ i ∧ i ≤ idxw
      ∧ wl.words.getD i [] = w := by
  obtain ⟨i, heq, hlo, hle, hsw, hlew, _⟩ :=
    lookup_succeeds wl hs hhi h1 h2 hw (swith_refl w)
  have hieq : wl.words.getD i [] = w := wlt_conn (swith_ge hsw) hlew
  refine ⟨i, ?_, hlo, hle, hieq⟩
  rw [heq, hieq]
  simp

/-- `lookup` written as a single conditional over the `bisect_left` result. -/
theorem lookup_def (wl : Wordlist) (pfx : List Char) (lo hi : Nat) :
    wl.lookup pfx lo (some hi) =
      if bisectLeft wl.words pfx lo hi < wl.words.length
          ∧ swith pfx (wl.words.getD (bisectLeft wl.words pfx lo hi) []) = true
      then (some (bisectLeft wl.words pfx lo hi),
            (wl.words.getD (bisectLeft wl.words pfx lo hi) [] == pfx))
      else (none, false) := by
  rw [Wordlist.lookup]
  simp only [Option.getD_some]
  by_cases h : bisectLeft wl.words pfx lo hi < wl.words.length
      ∧ swith pfx (wl.words.getD (bisectLeft wl.words pfx lo hi) []) = true
  · have hb : (decide (bisectLeft wl.words pfx lo hi < wl.words.length)
        && swith pfx (wl.words.getD (bisectLeft wl.words pfx lo hi) [])) = true := by
      simp only [Bool.and_eq_true, decide_eq_true_eq]
      exact ⟨h.1, h.2⟩
    rw [if_pos h, if_pos hb]
  · have hb : ¬((decide (bisectLeft wl.words pfx lo hi < wl.words.length)
        && swith pfx (wl.words.getD (bisectLeft wl.words pfx lo hi) [])) = true) := by
      simp only [Bool.and_eq_true, decide_eq_true_eq]
      exact h
    rw [if_neg h, if_neg hb]

theorem mem_iff_getD (ws : List (List Char)) (w : List Char) :
    w ∈ ws ↔ ∃ k, k < ws.length ∧ ws.getD k [] = w := by
  rw [List.mem_iff_getElem]
  constructor
  · rintro ⟨k, hk, hg⟩
    refine ⟨k, hk, ?_⟩
    rw [getD_eq_get _ k hk]
    simpa using hg
  · rintro ⟨k, hk, hg⟩
    refine ⟨k, hk, ?_⟩
    rw [getD_eq_get _ k hk] at hg
    simpa using hg

/-- C4: over the full range `[0, W)`, `lookup` reports an exact hit iff the
query is literally one of the stored words (the uppercased, length-filtered,
sorted input), and the membership test `__contains__` is exactly the second
component of that full-range lookup. -/
theorem C4_contains_iff_lookup_exact (input : List (List Char)) (minLen : Nat) (p : List Char) :
    (((mkWordlist input minLen).lookup p 0 (some (mkWordlist input minLen).words.length)).2 = true
      ↔ p ∈ (mkWordlist input minLen).words)
    ∧ (mkWordlist input minLen).containsW p
        = ((mkWordlist input minLen).lookup p 0 (some (mkWordlist input minLen).words.length)).2 := by
  have hs : SortedW (mkWordlist input minLen).words := sortedW_wordsOf input minLen
  refine ⟨⟨?_, ?_⟩, rfl⟩
  · intro h
    rw [lookup_def] at h
    by_cases hc : bisectLeft (mkWordlist input minLen).words p 0
          (mkWordlist input minLen).words.length < (mkWordlist input minLen).words.length
        ∧ swith p ((mkWordlist input minLen).words.getD
          (bisectLeft (mkWordlist input minLen).words p 0
            (mkWordlist input minLen).words.length) []) = true
    · rw [if_pos hc] at h
      simp only [beq_iff_eq] at h
      rw [mem_iff_getD]
      exact ⟨_, hc.1, h⟩
    · rw [if_neg hc] at h
      simp at h
  · intro h
    obtain ⟨k, hk, hkw⟩ := (mem_iff_getD _ p).mp h
    obtain ⟨i, heq, _, _, _⟩ :=
      lookup_exact (mkWordlist input minLen) hs (le_refl _) (Nat.zero_le k) hk hkw
    rw [heq]

/-- C3, amended: over a built dictionary and bounds `lo ≤ hi ≤ W`,
(1) when some word at an index in `[lo, hi)` starts with `P`, `lookup`
returns the leftmost such index (with the claimed narrowing properties); but
(2) `lookup` returns `none` iff no in-range word starts with `P` *and* it is
not the case that all in-range words are below `P` while the word at index
`hi` itself (just outside the range, when `hi < W`) starts with `P`: in that
boundary case the code returns the out-of-range position `hi` instead of
`none`, because it checks the `bisect_left` result against `len(words)`
rather than against `hi`. -/
theorem C3_lookup_range (input : List (List Char)) (minLen : Nat) (p : List Char)
    (lo hi : Nat) (hlo : lo ≤ hi) (hhi : hi ≤ (mkWordlist input minLen).words.length) :
    ((∃ k, lo ≤ k ∧ k < hi ∧ swith p ((mkWordlist input minLen).words.getD k []) = true) →
      ∃ i, ((mkWordlist input minLen).lookup p lo (some hi)).1 = some i ∧ lo ≤ i ∧ i < hi
        ∧ swith p ((mkWordlist input minLen).words.getD i []) = true
        ∧ ∀ k, lo ≤ k → k < i → swith p ((mkWordlist input minLen).words.getD k []) = false)
    ∧ (((mkWordlist input minLen).lookup p lo (some hi)).1 = none ↔
        ((∀ k, lo ≤ k → k < hi → swith p ((mkWordlist input minLen).words.getD k []) = false)
         ∧ ¬(hi < (mkWordlist input minLen).words.length
             ∧ swith p ((mkWordlist input minLen).words.getD hi []) = true
             ∧ ∀ k, lo ≤ k → k < hi →
                 wlt ((mkWordlist input minLen).words.getD k []) p = true))) := by
  have hs : SortedW (mkWordlist input minLen).words := sortedW_wordsOf input minLen
  set wl := mkWordlist input minLen with hwl
  constructor
  · rintro ⟨k, hk1, hk2, hsw⟩
    obtain ⟨i, heq, hloi, hle, hswi, _, hib⟩ := lookup_succeeds wl hs hhi hk1 hk2 rfl hsw
    refine ⟨i, by rw [heq], hloi, by omega, hswi, ?_⟩
    intro q hq1 hq2
    have hq3 : q < bisectLeft wl.words p lo hi := by omega
    have hlt := bisectLeft_lower wl.words p hs lo hi hhi q hq1 hq3
    rcases hq : swith p (wl.words.getD q []) with _ | _
    · rfl
    · rw [swith_ge hq] at hlt
      exact absurd hlt (by simp)
  · constructor
    · intro hnone
      constructor
      · intro k hk1 hk2
        rcases hq : swith p (wl.words.getD k []) with _ | _
        · rfl
        · obtain ⟨i, heq, _, _, _, _, _⟩ := lookup_succeeds wl hs hhi hk1 hk2 rfl hq
          rw [heq] at hnone
          simp at hnone
      · rintro ⟨hhiW, hswhi, hall⟩
        have hb := bisectLeft_bounds wl.words p lo hi hlo
        have hbl : bisectLeft wl.words p lo hi = hi := by
          rcases Nat.eq_or_lt_of_le hb.2 with he | hlt
          · exact he
          · have h1 := bisectLeft_upper wl.words p hs lo hi hhi
              (bisectLeft wl.words p lo hi) (le_refl _) hlt
            have h2 := hall (bisectLeft wl.words p lo hi) hb.1 hlt
            rw [h1] at h2
            exact absurd h2 (by simp)
        rw [lookup_def, if_pos (by rw [hbl]; exact ⟨hhiW, hswhi⟩)] at hnone
        simp at hnone
    · rintro ⟨ha, hb⟩
      rw [lookup_def]
      by_cases hc : bisectLeft wl.words p lo hi < wl.words.length
          ∧ swith p (wl.words.getD (bisectLeft wl.words p lo hi) []) = true
      · exfalso
        have hbd := bisectLeft_bounds wl.words p lo hi hlo
        rcases Nat.eq_or_lt_of_le hbd.2 with he | hlt
        · refine hb ⟨he ▸ hc.1, he ▸ hc.2, ?_⟩
          intro k hk1 hk2
          exact bisectLeft_lower wl.words p hs lo hi hhi k hk1 (by omega)
        · have := ha (bisectLeft wl.words p lo hi) hbd.1 hlt
          rw [this] at hc
          exact absurd hc.2 (by simp)
      · rw [if_neg hc]

/-- Witness for `C3_lookup_range`: on the dictionary built from
{CAT, CATS, DOG} with `min_len = 3`, a lookup of the prefix "CA" over the full
range `[0, 3)` succeeds. -/
theorem C3_lookup_range_witness :
    ∃ i, ((mkWordlist [String.toList "CAT", String.toList "CATS", String.toList "DOG"] 3).lookup
        (String.toList "CA") 0 (some 3)).1 = some i := by
  obtain ⟨i, hi, _⟩ :=
    (C3_lookup_range [String.toList "CAT", String.toList "CATS", String.toList "DOG"] 3
      (String.toList "CA") 0 3 (by decide) (by decide)).1 ⟨0, by decide, by decide, by decide⟩
  exact ⟨i, hi⟩

/-- C3 counterexample: the dictionary built from {BBB, ABC} stores
`words = [ABC, BBB]`; `lookup("B", 0, 1)` must, per the claim, return `none`
(no word at an index in `[0, 1)` — i.e. at index 0 — starts with "B"), but the
code returns position `1`, which lies outside `[lo, hi) = [0, 1)`. -/
theorem C3_counterexample :
    ((mkWordlist [String.toList "BBB", String.toList "ABC"] 3).lookup ['B'] 0 (some 1)).1 = some 1
    ∧ swith ['B'] ((mkWordlist [String.toList "BBB", String.toList "ABC"] 3).words.getD 0 []) = false
    ∧ (mkWordlist [String.toList "BBB", String.toList "ABC"] 3).words.length = 2 := by
  decide

/-- Integer square root by descending search: the largest `k` of `0..bound`
with `k * k ≤ n2` (structurally recursive, so the kernel can evaluate it). -/
def isqrtGo (n2 : Nat) : Nat → Nat
  | 0 => 0
  | k + 1 => if (k + 1) * (k + 1) ≤ n2 then k + 1 else isqrtGo n2 k

/-- `exact_sqrt(n2)`: `n = int(np.sqrt(n2))` is modelled by the floor integer
square root `isqrtGo n2 n2` (equal to the truncated real square root, which is
exact for all realistic grid sizes); the `assert n * n == n2` is modelled by
`Option`: `none` is the raised `AssertionError` (the error the spec calls
`InvalidGridSize`). -/
def exact_sqrt (n2 : Nat) : Option Nat :=
  if isqrtGo n2 n2 * isqrtGo n2 n2 = n2 then some (isqrtGo n2 n2) else none

theorem isqrtGo_sq_le (n2 : Nat) : ∀ k, isqrtGo n2 k * isqrtGo n2 k ≤ n2 ∨ isqrtGo n2 k = 0 := by
  intro k
  induction k with
  | zero => exact Or.inr rfl
  | succ k ih =>
    rw [isqrtGo]
    by_cases h : (k + 1) * (k + 1) ≤ n2
    · rw [if_pos h]; exact Or.inl h
    · rw [if_neg h]; exact ih

theorem le_isqrtGo (n2 : Nat) : ∀ k m, m ≤ k → m * m ≤ n2 → m ≤ isqrtGo n2 k := by
  intro k
  induction k with
  | zero => intro m h _; simpa [isqrtGo] using h
  | succ k ih =>
    intro m hmk hm
    rw [isqrtGo]
    by_cases h : (k + 1) * (k + 1) ≤ n2
    · rw [if_pos h]; exact hmk
    · rw [if_neg h]
      apply ih m _ hm
      rcases Nat.eq_or_lt_of_le hmk with he | hlt
      · exact absurd (he ▸ hm) h
      · omega

theorem exact_sqrt_of_sq {n n2 : Nat} (h : n * n = n2) : exact_sqrt n2 = some n := by
  have h1 : n ≤ isqrtGo n2 n2 := by
    apply le_isqrtGo n2 n2 n _ (by omega)
    have hnn : n ≤ n * n := by
      rcases Nat.eq_zero_or_pos n with rfl | hp
      · omega
      · calc n = n * 1 := (Nat.mul_one n).symm
        _ ≤ n * n := Nat.mul_le_mul_left n hp
    omega
  have h2 : isqrtGo n2 n2 ≤ n := by
    rcases isqrtGo_sq_le n2 n2 with hle | hz
    · by_contra hgt
      have : n * n < isqrtGo n2 n2 * isqrtGo n2 n2 :=
        Nat.mul_lt_mul_of_lt_of_le (by omega) (by omega) (by omega)
      omega
    · omega
  have he : isqrtGo n2 n2 = n := by omega
  rw [exact_sqrt, he, if_pos h]

theorem exact_sqrt_isSome_iff (n2 : Nat) :
    (∃ n, exact_sqrt n2 = some n ∧ n * n = n2) ↔ ∃ n, n * n = n2 := by
  constructor
  · rintro ⟨n, _, h⟩; exact ⟨n, h⟩
  · rintro ⟨n, h⟩; exact ⟨n, exact_sqrt_of_sq h, h⟩

/-- The neighbor list of cell `i` built by the loop body of `boggle_neighbors`,
with appends in source order — up, up-left, up-right, down, down-left,
down-right, left, right — each guarded by the edge flags of the source
(`on_top = i < n`, `on_bottom = i >= n2 - n` i.e. `¬(i + n < n2)`,
`on_left = i % n == 0`, `on_right = (i+1) % n == 0`); the nesting of the
source's conditionals is flattened into conjunctive guards. -/
def neighborsRow (n n2 i : Nat) : List Nat :=
  (if n ≤ i then [i - n] else [])
  ++ (if n ≤ i ∧ i % n ≠ 0 then [i - n - 1] else [])
  ++ (if n ≤ i ∧ (i + 1) % n ≠ 0 then [i - n + 1] else [])
  ++ (if i + n < n2 then [i + n] else [])
  ++ (if i + n < n2 ∧ i % n ≠ 0 then [i + n - 1] else [])
  ++ (if i + n < n2 ∧ (i + 1) % n ≠ 0 then [i + n + 1] else [])
  ++ (if i % n ≠ 0 then [i - 1] else [])
  ++ (if (i + 1) % n ≠ 0 then [i + 1] else [])

/-- `boggle_neighbors(n2)`: the full table, one neighbor list per cell.  (The
source memoizes the table in a `cache` dict keyed by `n2`; the cache is
transparent — it only replays the pure construction — and is omitted.) -/
def boggle_neighbors (n2 : Nat) : Option (List (List Nat)) :=
  (exact_sqrt n2).map (fun n => (List.range n2).map (neighborsRow n n2))

theorem boggle_neighbors_some {n2 : Nat} {nbrs : List (List Nat)}
    (h : boggle_neighbors n2 = some nbrs) :
    ∃ n, n * n = n2 ∧ nbrs = (List.range n2).map (neighborsRow n n2) := by
  rw [boggle_neighbors, exact_sqrt] at h
  by_cases hc : isqrtGo n2 n2 * isqrtGo n2 n2 = n2
  · rw [if_pos hc] at h
    simp at h
    exact ⟨isqrtGo n2 n2, hc, h.symm⟩
  · rw [if_neg hc] at h
    simp at h

theorem getD_map_range (f : Nat → List Nat) {n2 i : Nat} (h : i < n2) :
    ((List.range n2).map f).getD i [] = f i := by
  rw [List.getD_eq_getElem?_getD, List.getElem?_map, List.getElem?_range h]
  rfl

theorem mem_ifSingleton (c : Prop) [Decidable c] (v j : Nat) :
    (j ∈ if c then [v] else ([] : List Nat)) ↔ c ∧ j = v := by
  split_ifs with h
  · simp [h]
  · simp [h]

theorem mem_neighborsRow {n n2 i j : Nat} :
    j ∈ neighborsRow n n2 i ↔
      ((n ≤ i ∧ j = i - n)
       ∨ (n ≤ i ∧ i % n ≠ 0 ∧ j = i - n - 1)
       ∨ (n ≤ i ∧ (i + 1) % n ≠ 0 ∧ j = i - n + 1)
       ∨ (i + n < n2 ∧ j = i + n)
       ∨ (i + n < n2 ∧ i % n ≠ 0 ∧ j = i + n - 1)
       ∨ (i + n < n2 ∧ (i + 1) % n ≠ 0 ∧ j = i + n + 1)
       ∨ (i % n ≠ 0 ∧ j = i - 1)
       ∨ ((i + 1) % n ≠ 0 ∧ j = i + 1)) := by
  simp only [neighborsRow, List.mem_append, mem_ifSingleton, and_assoc, or_assoc]

theorem pos_of_mod_ne {i n : Nat} (h : i % n ≠ 0) : 1 ≤ i := by
  rcases i with _ | i
  · simp at h
  · omega

theorem two_le_of_mod_ne {i n : Nat} (hn : 0 < n) (h : i % n ≠ 0) : 2 ≤ n := by
  rcases n with _ | _ | n
  · omega
  · simp [Nat.mod_one] at h
  · omega

theorem ge_succ_of_mod {i n : Nat} (h1 : n ≤ i) (h2 : i % n ≠ 0) : n + 1 ≤ i := by
  rcases Nat.eq_or_lt_of_le h1 with he | hlt
  · subst he
    simp [Nat.mod_self] at h2
  · omega

theorem succ_mod_eq_zero_iff {i n : Nat} (hn : 0 < n) : (i + 1) % n = 0 ↔ i % n = n - 1 := by
  rcases Nat.eq_or_lt_of_le hn with h1 | h1
  · rw [← h1]
    simp [Nat.mod_one]
  · have hm : i % n < n := Nat.mod_lt i (by omega)
    have hadd : (i + 1) % n = (i % n + 1) % n := by
      conv_lhs => rw [Nat.add_mod, Nat.mod_eq_of_lt h1]
    constructor
    · intro h
      by_contra hne
      have : i % n + 1 < n := by omega
      rw [hadd, Nat.mod_eq_of_lt this] at h
      omega
    · intro h
      rw [hadd, h, Nat.sub_add_cancel (by omega), Nat.mod_self]

theorem three_le_of_mods {i n : Nat} (hn : 0 < n) (h1 : i % n ≠ 0)
    (h2 : (i + 1) % n ≠ 0) : 3 ≤ n := by
  have h3 : i % n < n := Nat.mod_lt i hn
  have h4 : i % n ≠ n - 1 := fun he => h2 ((succ_mod_eq_zero_iff hn).mpr he)
  have h5 := two_le_of_mod_ne hn h1
  omega

theorem sub_mod_eq {i n : Nat} (h : n ≤ i) : (i - n) % n = i % n := by
  conv_rhs => rw [← Nat.sub_add_cancel h, Nat.add_mod_right]

theorem succ_lt_sq {i n n2 : Nat} (hn2 : n2 = n * n) (h1 : i < n2)
    (h2 : (i + 1) % n ≠ 0) : i + 1 < n2 := by
  rcases Nat.lt_or_ge (i + 1) n2 with h | h
  · exact h
  · exfalso
    have he : i + 1 = n2 := by omega
    apply h2
    rw [he, hn2]
    exact Nat.mul_mod_right n n

theorem add_succ_lt {i n n2 : Nat} (hn2 : n2 = n * n) (h1 : i + n < n2)
    (h2 : (i + 1) % n ≠ 0) : i + n + 1 < n2 := by
  rcases Nat.lt_or_ge (i + n + 1) n2 with h | h
  · exact h
  · exfalso
    have hn : 0 < n := by
      rcases Nat.eq_zero_or_pos n with rfl | hp

      · simp [hn2] at h1
      · exact hp
    obtain ⟨m, rfl⟩ : ∃ m, n = m + 1 := ⟨n - 1, by omega⟩
    have key : (m + 1) * m + (m + 1) = (m + 1) * (m + 1) := by ring
    have he : i + 1 = (m + 1) * m := by omega
    apply h2
    rw [he]
    exact Nat.mul_mod_right (m + 1) m

theorem mem_neighborsRow_symm {n n2 i j : Nat} (hn2 : n2 = n * n) (hi : i < n2)
    (h : j ∈ neighborsRow n n2 i) : i ∈ neighborsRow n n2 j := by
  have hn : 0 < n := by
    rcases Nat.eq_zero_or_pos n with rfl | hp
    · simp [hn2] at hi
    · exact hp
  rw [mem_neighborsRow] at h ⊢
  rcases h with ⟨h1, h2⟩ | ⟨h1, h2, h3⟩ | ⟨h1, h2, h3⟩ | ⟨h1, h2⟩ | ⟨h1, h2, h3⟩
    | ⟨h1, h2, h3⟩ | ⟨h1, h2⟩ | ⟨h1, h2⟩
  · -- up at `i` becomes down at `j`
    refine Or.inr (Or.inr (Or.inr (Or.inl ⟨by omega, by omega⟩)))
  · -- up-left becomes down-right
    have h4 := ge_succ_of_mod h1 h2
    refine Or.inr (Or.inr (Or.inr (Or.inr (Or.inr (Or.inl ⟨by omega, ?_, by omega⟩)))))
    have he : j + 1 = i - n := by omega
    rw [he, sub_mod_eq h1]
    exact h2
  · -- up-right becomes down-left
    have h4 := succ_lt_sq hn2 hi h2
    have h5 := two_le_of_mod_ne hn h2
    refine Or.inr (Or.inr (Or.inr (Or.inr (Or.inl ⟨by omega, ?_, by omega⟩))))
    have he : j = i + 1 - n := by omega
    rw [he, sub_mod_eq (by omega)]
    exact h2
  · -- down becomes up
    exact Or.inl ⟨by omega, by omega⟩
  · -- down-left becomes up-right
    have h4 := pos_of_mod_ne h2
    have h5 := two_le_of_mod_ne hn h2
    refine Or.inr (Or.inr (Or.inl ⟨by omega, ?_, by omega⟩))
    have he : j + 1 = i + n := by omega
    rw [he, Nat.add_mod_right]
    exact h2
  · -- down-right becomes up-left
    refine Or.inr (Or.inl ⟨by omega, ?_, by omega⟩)
    have he : j = i + 1 + n := by omega
    rw [he, Nat.add_mod_right]
    exact h2
  · -- left becomes right
    have h4 := pos_of_mod_ne h1
    refine Or.inr (Or.inr (Or.inr (Or.inr (Or.inr (Or.inr (Or.inr ⟨?_, by omega⟩))))))
    have he : j + 1 = i := by omega
    rw [he]
    exact h1
  · -- right becomes left
    refine Or.inr (Or.inr (Or.inr (Or.inr (Or.inr (Or.inr (Or.inl ⟨?_, by omega⟩))))))
    rw [h2]
    exact h1

theorem neighborsRow_lt {n n2 i j : Nat} (hn2 : n2 = n * n) (hi : i < n2)
    (h : j ∈ neighborsRow n n2 i) : j < n2 := by
  have hn : 0 < n := by
    rcases Nat.eq_zero_or_pos n with rfl | hp
    · simp [hn2] at hi
    · exact hp
  rw [mem_neighborsRow] at h
  rcases h with ⟨h1, h2⟩ | ⟨h1, h2, h3⟩ | ⟨h1, h2, h3⟩ | ⟨h1, h2⟩ | ⟨h1, h2, h3⟩
    | ⟨h1, h2, h3⟩ | ⟨h1, h2⟩ | ⟨h1, h2⟩
  · omega
  · omega
  · omega
  · omega
  · omega
  · have := add_succ_lt hn2 h1 h2
    omega
  · omega
  · have := succ_lt_sq hn2 hi h1
    omega

theorem neighborsRow_not_self {n n2 i : Nat} (hn2 : n2 = n * n) (hi : i < n2) :
    i ∉ neighborsRow n n2 i := by
  have hn : 0 < n := by
    rcases Nat.eq_zero_or_pos n with rfl | hp
    · simp [hn2] at hi
    · exact hp
  rw [mem_neighborsRow]
  rintro (⟨h1, h2⟩ | ⟨h1, h2, h3⟩ | ⟨h1, h2, h3⟩ | ⟨h1, h2⟩ | ⟨h1, h2, h3⟩
    | ⟨h1, h2, h3⟩ | ⟨h1, h2⟩ | ⟨h1, h2⟩)
  · omega
  · omega
  · have := two_le_of_mod_ne hn h2
    omega
  · omega
  · have := two_le_of_mod_ne hn h2
    omega
  · omega
  · have := pos_of_mod_ne h1
    omega
  · omega

set_option maxHeartbeats 1600000 in
theorem neighborsRow_nodup {n n2 i : Nat} (hn2 : n2 = n * n) (hi : i < n2) :
    (neighborsRow n n2 i).Nodup := by
  have hn : 0 < n := by
    rcases Nat.eq_zero_or_pos n with rfl | hp
    · simp [hn2] at hi
    · exact hp
  rw [neighborsRow]
  by_cases hA : n ≤ i <;> by_cases hB : i % n ≠ 0 <;> by_cases hC : (i + 1) % n ≠ 0 <;>
    by_cases hD : i + n < n2
  all_goals try have p1 : 1 ≤ i := pos_of_mod_ne hB
  all_goals try have p2 : 2 ≤ n := two_le_of_mod_ne hn hB
  all_goals try have p3 : 2 ≤ n := two_le_of_mod_ne hn hC
  all_goals try have p4 : n + 1 ≤ i := ge_succ_of_mod hA hB
  all_goals try have p5 : 3 ≤ n := three_le_of_mods hn hB hC
  all_goals try have p6 : i + 1 < n2 := succ_lt_sq hn2 hi hC
  all_goals try have p7 : i + n + 1 < n2 := add_succ_lt hn2 hD hC
  all_goals simp [hA, hB, hC, hD]
  all_goals omega

theorem length_ifSingleton (c : Prop) [Decidable c] (v : Nat) :
    (if c then [v] else ([] : List Nat)).length ≤ 1 := by
  split_ifs <;> simp

theorem neighborsRow_length {n n2 i : Nat} : (neighborsRow n n2 i).length ≤ 8 := by
  rw [neighborsRow]
  simp only [List.length_append]
  have h1 := length_ifSingleton (n ≤ i) (i - n)
  have h2 := length_ifSingleton (n ≤ i ∧ i % n ≠ 0) (i - n - 1)
  have h3 := length_ifSingleton (n ≤ i ∧ (i + 1) % n ≠ 0) (i - n + 1)
  have h4 := length_ifSingleton (i + n < n2) (i + n)
  have h5 := length_ifSingleton (i + n < n2 ∧ i % n ≠ 0) (i + n - 1)
  have h6 := length_ifSingleton (i + n < n2 ∧ (i + 1) % n ≠ 0) (i + n + 1)
  have h7 := length_ifSingleton (i % n ≠ 0) (i - 1)
  have h8 := length_ifSingleton ((i + 1) % n ≠ 0) (i + 1)
  omega

/-- C6: Adjacency Model construction fails (the `assert` of `exact_sqrt`
raises, which the spec names `InvalidGridSize`) exactly when the cell count
is not a perfect square, and otherwise returns a full table (one neighbor
list per cell); in particular 25 cells succeed and 24 cells fail. -/
theorem C6_invalid_grid_size :
    (∀ n2, (∃ t, boggle_neighbors n2 = some t ∧ t.length = n2) ↔ ∃ n, n * n = n2)
    ∧ (boggle_neighbors 25).isSome = true ∧ boggle_neighbors 24 = none := by
  refine ⟨?_, by decide, by decide⟩
  intro n2
  constructor
  · rintro ⟨t, ht, _⟩
    obtain ⟨n, hn, _⟩ := boggle_neighbors_some ht
    exact ⟨n, hn⟩
  · rintro ⟨n, rfl⟩
    refine ⟨(List.range (n * n)).map (neighborsRow n (n * n)), ?_, by simp⟩
    rw [boggle_neighbors, exact_sqrt_of_sq rfl]
    rfl

/-- C8: the adjacency table built for a perfect-square cell count is
symmetric: for cells `i, j < n2`, `j` is listed among the neighbors of `i`
iff `i` is listed among the neighbors of `j`. -/
theorem C8_adjacency_symm (n2 : Nat) (nbrs : List (List Nat)) (i j : Nat)
    (hn : boggle_neighbors n2 = some nbrs) (hi : i < n2) (hj : j < n2) :
    j ∈ nbrs.getD i [] ↔ i ∈ nbrs.getD j [] := by
  obtain ⟨n, hn2, rfl⟩ := boggle_neighbors_some hn
  rw [getD_map_range _ hi, getD_map_range _ hj]
  exact ⟨mem_neighborsRow_symm hn2.symm hi, mem_neighborsRow_symm hn2.symm hj⟩

/-- Witness for `C8_adjacency_symm` at the 3×3 grid, cells 4 and 8. -/
theorem C8_adjacency_symm_witness :
    ∃ t, boggle_neighbors 9 = some t ∧ (8 ∈ t.getD 4 [] ↔ 4 ∈ t.getD 8 []) := by
  rcases ht : boggle_neighbors 9 with _ | t
  · exact absurd ht (by decide)
  · exact ⟨t, rfl, C8_adjacency_symm 9 t 4 8 ht (by decide) (by decide)⟩

/-- C10: each neighbor list of a table built for a perfect-square cell count
contains only cell indices below the cell count, never the cell itself, and no
duplicates; its length is at most 8. -/
theorem C10_neighbor_invariants (n2 : Nat) (nbrs : List (List Nat)) (i : Nat)
    (hn : boggle_neighbors n2 = some nbrs) (hi : i < n2) :
    (∀ j ∈ nbrs.getD i [], j < n2) ∧ i ∉ nbrs.getD i []
      ∧ (nbrs.getD i []).Nodup ∧ (nbrs.getD i []).length ≤ 8 := by
  obtain ⟨n, hn2, rfl⟩ := boggle_neighbors_some hn
  rw [getD_map_range _ hi]
  exact ⟨fun j hj => neighborsRow_lt hn2.symm hi hj, neighborsRow_not_self hn2.symm hi,
    neighborsRow_nodup hn2.symm hi, neighborsRow_length⟩

/-- Witness for `C10_neighbor_invariants` at the 3×3 grid, cell 4 (the center,
which has all 8 neighbors). -/
theorem C10_neighbor_invariants_witness :
    ∃ t, boggle_neighbors 9 = some t ∧ (∀ j ∈ t.getD 4 [], j < 9) ∧ 4 ∉ t.getD 4 []
      ∧ (t.getD 4 []).Nodup ∧ (t.getD 4 []).length ≤ 8 := by
  rcases ht : boggle_neighbors 9 with _ | t
  · exact absurd ht (by decide)
  · exact ⟨t, rfl, C10_neighbor_invariants 9 t 4 ht (by decide)⟩

/-- The letter chunk a cell contributes to the running string in
`BoggleFinder.find`: `c = self.board[i]; if c == 'Q': c = 'QU'`. -/
def chunk (c : Char) : List Char := if c = 'Q' then ['Q', 'U'] else [c]

/-- `self.found[prefix] = True`: insertion of a key into the found-words dict
(keys are unique; re-inserting an existing key is a no-op, a new key is
appended in insertion order). -/
def addFound (found : List (List Char)) (w : List Char) : List (List Char) :=
  if w ∈ found then found else found ++ [w]

/-- `BoggleFinder.find(lo, hi, i, visited, prefix)`, the recursive backtracking
search: return on a revisited square; look up the accumulated string in
`words[lo:hi]`; on a dead range return; record the string if it is an exact
word; push `i`, extend the string by the cell's letter (`Q` → `QU`), recurse
into every neighbor with the narrowed range `(wordpos, hi)`, then pop `i`.
Python mutates `self.found` and `visited` in place; both are threaded here,
and the result is the pair `(found, visited)` after the call.  The recursion
is bounded by `fuel`; the real recursion depth never exceeds
`len(visited distinct cells) + 1`, so any `fuel ≥ board.length + 2` replays
the Python call exactly. -/
def find (wl : Wordlist) (board : List Char) (nbrs : List (List Nat)) :
    Nat → Nat → Nat → Nat → List Nat → List Char → List (List Char) →
      List (List Char) × List Nat
  | 0, _, _, _, visited, _, found => (found, visited)
  | fuel + 1, lo, hi, i, visited, pfx, found =>
    if i ∈ visited then (found, visited)
    else
      match wl.lookup pfx lo (some hi) with
      | (none, _) => (found, visited)
      | (some wordpos, isWord) =>
        let found1 := if isWord then addFound found pfx else found
        let visited1 := visited ++ [i]
        let pfx1 := pfx ++ chunk (board.getD i ' ')
        let r := (nbrs.getD i []).foldl
          (fun acc j => find wl board nbrs fuel wordpos hi j acc.2 pfx1 acc.1)
          (found1, visited1)
        (r.1, r.2.dropLast)

/-- The search loop of `BoggleFinder.set_board`: for each starting cell `i`,
seed the range with the per-letter bounds of the board letter at `i` and run
`find(lo, hi, i, [], '')`, accumulating `self.found` across starts. -/
def setBoardFound (wl : Wordlist) (board : List Char) (nbrs : List (List Nat))
    (fuel : Nat) : List (List Char) :=
  (List.range board.length).foldl
    (fun found i =>
      (find wl board nbrs fuel (wl.bounds (board.getD i ' ')).1
        (wl.bounds (board.getD i ' ')).2 i [] [] found).1)
    []

/-- `BoggleFinder.set_board(board)`: build (or reuse) the adjacency table for
`len(board)` — raising like `boggle_neighbors` if the length is not a perfect
square — then enumerate the words; the result is the found-words set. -/
def setBoard (wl : Wordlist) (board : List Char) (fuel : Nat) :
    Option (List (List Char)) :=
  (boggle_neighbors board.length).map (fun nbrs => setBoardFound wl board nbrs fuel)

theorem find_visited (wl : Wordlist) (board : List Char) (nbrs : List (List Nat)) :
    ∀ fuel lo hi i vis pfx found,
      (find wl board nbrs fuel lo hi i vis pfx found).2 = vis := by
  intro fuel
  induction fuel with
  | zero => intros; rfl
  | succ fuel ih =>
    intro lo hi i vis pfx found
    rw [find]
    by_cases hv : i ∈ vis
    · rw [if_pos hv]
    · rw [if_neg hv]
      rcases hl : wl.lookup pfx lo (some hi) with ⟨wp, isw⟩
      rcases wp with _ | wp
      · rfl
      · have haux : ∀ (js : List Nat) (acc : List (List Char) × List Nat),
            (js.foldl (fun acc j =>
                find wl board nbrs fuel wp hi j acc.2 (pfx ++ chunk (board.getD i ' ')) acc.1)
              acc).2 = acc.2 := by
          intro js
          induction js with
          | nil => intro acc; rfl
          | cons j js ihj =>
            intro acc
            rw [List.foldl_cons, ihj]
            exact ih wp hi j acc.2 (pfx ++ chunk (board.getD i ' ')) acc.1
        simp only [haux]
        exact List.dropLast_concat ..

theorem mem_addFound_self (found : List (List Char)) (w : List Char) :
    w ∈ addFound found w := by
  rw [addFound]
  split_ifs with h
  · exact h
  · simp

theorem mem_addFound_of_mem {found : List (List Char)} {v : List Char} (w : List Char)
    (h : v ∈ found) : v ∈ addFound found w := by
  rw [addFound]
  split_ifs
  · exact h
  · simp [h]

theorem mem_addFound_elim {found : List (List Char)} {v w : List Char}
    (h : v ∈ addFound found w) : v ∈ found ∨ v = w := by
  rw [addFound] at h
  split_ifs at h
  · exact Or.inl h
  · rcases List.mem_append.mp h with h1 | h1
    · exact Or.inl h1
    · simp at h1
      exact Or.inr h1

/-- `find` never removes a word from the found set. -/
theorem find_found_mono (wl : Wordlist) (board : List Char) (nbrs : List (List Nat)) :
    ∀ fuel lo hi i vis pfx found w, w ∈ found →
      w ∈ (find wl board nbrs fuel lo hi i vis pfx found).1 := by
  intro fuel
  induction fuel with
  | zero => intro lo hi i vis pfx found w hw; exact hw
  | succ fuel ih =>
    intro lo hi i vis pfx found w hw
    rw [find]
    by_cases hv : i ∈ vis
    · rw [if_pos hv]; exact hw
    · rw [if_neg hv]
      rcases hl : wl.lookup pfx lo (some hi) with ⟨wp, isw⟩
      rcases wp with _ | wp
      · exact hw
      · have haux : ∀ (js : List Nat) (acc : List (List Char) × List Nat), w ∈ acc.1 →
            w ∈ (js.foldl (fun acc j =>
                find wl board nbrs fuel wp hi j acc.2 (pfx ++ chunk (board.getD i ' ')) acc.1)
              acc).1 := by
          intro js
          induction js with
          | nil => intro acc hacc; exact hacc
          | cons j js ihj =>
            intro acc hacc
            rw [List.foldl_cons]
            exact ihj _ (ih wp hi j acc.2 (pfx ++ chunk (board.getD i ' ')) acc.1 w hacc)
        simp only []
        apply haux
        by_cases hid : isw = true
        · subst hid
          simp only [if_true]
          exact mem_addFound_of_mem pfx hw
        · rw [if_neg hid]
          exact hw

/-- Adjacency chaining of consecutive path cells, against a neighbor table. -/
def chainAdj (nbrs : List (List Nat)) : List Nat → Bool
  | [] => true
  | [_] => true
  | a :: b :: rest => decide (b ∈ nbrs.getD a []) && chainAdj nbrs (b :: rest)

/-- A (non-empty) simple path on a grid of `n2` cells: all cells in range, no
repeats, consecutive cells adjacent. -/
def isPath (nbrs : List (List Nat)) (n2 : Nat) (p : List Nat) : Bool :=
  !p.isEmpty && p.all (fun c => decide (c < n2)) && decide p.Nodup && chainAdj nbrs p

/-- The string a path traces: the concatenation of its cells' letter chunks
(`Q` expanded to `QU`). -/
def traceOf (board : List Char) (p : List Nat) : List Char :=
  p.foldr (fun c acc => chunk (board.getD c ' ') ++ acc) []

/-- The last cell of the path has at least one adjacent cell not on the path. -/
def hasExt (nbrs : List (List Nat)) (p : List Nat) : Bool :=
  (nbrs.getD (p.getLast?.getD 0) []).any (fun j => !(decide (j ∈ p)))

theorem traceOf_append (board : List Char) (p q : List Nat) :
    traceOf board (p ++ q) = traceOf board p ++ traceOf board q := by
  induction p with
  | nil => rfl
  | cons a p ih =>
    simp only [traceOf, List.cons_append, List.foldr_cons] at *
    rw [ih, List.append_assoc]

theorem chainAdj_suffix (nbrs : List (List Nat)) :
    ∀ xs ys, chainAdj nbrs (xs ++ ys) = true → chainAdj nbrs ys = true := by
  intro xs
  induction xs with
  | nil => intro ys h; exact h
  | cons a xs ih =>
    intro ys h
    apply ih
    rcases hxs : xs ++ ys with _ | ⟨b, l⟩
    · rcases xs with _ | _
      · rcases ys with _ | _
        · rfl
        · simp at hxs
      · simp at hxs
    · rw [List.cons_append, hxs] at h
      simp only [chainAdj, Bool.and_eq_true] at h
      exact h.2

theorem chainAdj_snoc (nbrs : List (List Nat)) :
    ∀ (vis : List Nat) (i : Nat), chainAdj nbrs vis = true →
      (vis = [] ∨ i ∈ nbrs.getD (vis.getLast?.getD 0) []) →
      chainAdj nbrs (vis ++ [i]) = true := by
  intro vis
  induction vis with
  | nil => intro i _ _; rfl
  | cons a vis ih =>
    intro i h hlast
    rcases vis with _ | ⟨b, l⟩
    · rcases hlast with h1 | h1
      · simp at h1
      · simp only [List.getLast?_singleton, Option.getD_some] at h1
        simp only [List.cons_append, List.nil_append, chainAdj, Bool.and_eq_true]
        exact ⟨by simpa using h1, trivial⟩
    · simp only [chainAdj, Bool.and_eq_true] at h
      simp only [List.cons_append, chainAdj, Bool.and_eq_true]
      refine ⟨by simpa using h.1, ?_⟩
      apply ih i h.2
      rcases hlast with h1 | h1
      · simp at h1
      · right
        rwa [List.getLast?_cons_cons] at h1

theorem lookup_some_elim {wl : Wordlist} {pfx : List Char} {lo hi wp : Nat} {isw : Bool}
    (h : wl.lookup pfx lo (some hi) = (some wp, isw)) :
    wp < wl.words.length ∧ swith pfx (wl.words.getD wp []) = true
      ∧ (isw = true → wl.words.getD wp [] = pfx)
      ∧ wp = bisectLeft wl.words pfx lo hi := by
  rw [lookup_def] at h
  by_cases hc : bisectLeft wl.words pfx lo hi < wl.words.length
      ∧ swith pfx (wl.words.getD (bisectLeft wl.words pfx lo hi) []) = true
  · rw [if_pos hc] at h
    have h1 : bisectLeft wl.words pfx lo hi = wp := by
      have := congrArg Prod.fst h
      simpa using this
    have h2 : (wl.words.getD (bisectLeft wl.words pfx lo hi) [] == pfx) = isw := by
      have := congrArg Prod.snd h
      simpa using this
    refine ⟨h1 ▸ hc.1, h1 ▸ hc.2, ?_, h1.symm⟩
    intro hisw
    rw [hisw] at h2
    rw [← h1]
    exact beq_iff_eq.mp h2
  · rw [if_neg hc] at h
    simp at h

theorem isPath_iff {nbrs : List (List Nat)} {n2 : Nat} {p : List Nat} :
    isPath nbrs n2 p = true ↔
      (p ≠ [] ∧ (∀ c ∈ p, c < n2) ∧ p.Nodup ∧ chainAdj nbrs p = true) := by
  rw [isPath]
  simp only [Bool.and_eq_true, Bool.not_eq_true', List.all_eq_true, decide_eq_true_eq,
    and_assoc]
  constructor
  · rintro ⟨h1, h2, h3, h4⟩
    exact ⟨by simpa [List.isEmpty_iff] using h1, h2, h3, h4⟩
  · rintro ⟨h1, h2, h3, h4⟩
    exact ⟨by simpa [List.isEmpty_iff] using h1, h2, h3, h4⟩

theorem hasExt_iff {nbrs : List (List Nat)} {p : List Nat} :
    hasExt nbrs p = true ↔ ∃ j ∈ nbrs.getD (p.getLast?.getD 0) [], j ∉ p := by
  rw [hasExt]
  simp [List.any_eq_true]

theorem traceOf_singleton (board : List Char) (i : Nat) :
    traceOf board [i] = chunk (board.getD i ' ') := by
  simp [traceOf]

theorem nodup_snoc {vis : List Nat} {i : Nat} (h1 : vis.Nodup) (h2 : i ∉ vis) :
    (vis ++ [i]).Nodup := by
  rw [List.nodup_append]
  refine ⟨h1, List.nodup_singleton i, ?_⟩
  intro a ha hai
  rw [List.mem_singleton] at hai
  subst hai
  exact h2 ha

/-- Soundness invariant of `find`: any word in the output found-set either was
already present, or is a dictionary word traced by a simple adjacent path
whose last cell has an off-path neighbor. -/
theorem find_sound (wl : Wordlist) (board : List Char) (nbrs : List (List Nat))
    (hnb : ∀ a j, j ∈ nbrs.getD a [] → j < board.length)
    (hne : ∀ w ∈ wl.words, w ≠ ([] : List Char)) :
    ∀ fuel lo hi i vis pfx found,
      ((vis = [] ∧ pfx = ([] : List Char)) ∨
        (isPath nbrs board.length vis = true ∧ traceOf board vis = pfx
          ∧ i ∈ nbrs.getD (vis.getLast?.getD 0) [])) →
      i < board.length →
      ∀ w ∈ (find wl board nbrs fuel lo hi i vis pfx found).1,
        w ∈ found ∨ (w ∈ wl.words ∧ ∃ p, isPath nbrs board.length p = true
          ∧ traceOf board p = w ∧ hasExt nbrs p = true) := by
  intro fuel
  induction fuel with
  | zero => intro lo hi i vis pfx found _ _ w hw; exact Or.inl hw
  | succ fuel ih =>
    intro lo hi i vis pfx found hstate hcell w hw
    rw [find] at hw
    by_cases hv : i ∈ vis
    · rw [if_pos hv] at hw; exact Or.inl hw
    · rw [if_neg hv] at hw
      rcases hl : wl.lookup pfx lo (some hi) with ⟨wpo, isw⟩
      rw [hl] at hw
      rcases wpo with _ | wp
      · exact Or.inl hw
      · simp only [] at hw
        -- the pushed state
        have hpath1 : isPath nbrs board.length (vis ++ [i]) = true := by
          rw [isPath_iff]
          rcases hstate with ⟨rfl, rfl⟩ | ⟨hp, htr, hnbr⟩
          · exact ⟨by simp, by simpa using hcell, by simp, by simp [chainAdj]⟩
          · rw [isPath_iff] at hp
            refine ⟨by simp, ?_, nodup_snoc hp.2.2.1 hv, chainAdj_snoc nbrs vis i hp.2.2.2 (Or.inr hnbr)⟩
            intro c hc
            rcases List.mem_append.mp hc with hcv | hci
            · exact hp.2.1 c hcv
            · simp at hci
              exact hci ▸ hcell
        have htr1 : traceOf board (vis ++ [i]) = pfx ++ chunk (board.getD i ' ') := by
          rcases hstate with ⟨rfl, rfl⟩ | ⟨hp, htr, hnbr⟩
          · simp [traceOf_singleton]
          · rw [traceOf_append, htr, traceOf_singleton]
        have hlast1 : (vis ++ [i]).getLast?.getD 0 = i := by
          simp
        -- the found set after the possible record
        have hA : ∀ v, v ∈ (if isw = true then addFound found pfx else found) →
            v ∈ found ∨ (v ∈ wl.words ∧ ∃ p, isPath nbrs board.length p = true
              ∧ traceOf board p = v ∧ hasExt nbrs p = true) := by
          intro v hvf
          by_cases hisw : isw = true
          · rw [if_pos hisw] at hvf
            rcases mem_addFound_elim hvf with h1 | rfl
            · exact Or.inl h1
            · obtain ⟨hwp, _, hexact, _⟩ := lookup_some_elim hl
              have hmem : v ∈ wl.words := by
                rw [mem_iff_getD]
                exact ⟨wp, hwp, hexact hisw⟩
              rcases hstate with ⟨rfl, rfl⟩ | ⟨hp, htr, hnbr⟩
              · exact absurd rfl (hne [] hmem)
              · refine Or.inr ⟨hmem, vis, hp, htr, ?_⟩
                rw [hasExt_iff]
                exact ⟨i, hnbr, hv⟩
          · rw [if_neg hisw] at hvf
            exact Or.inl hvf
        -- the neighbor fold
        have hB : ∀ (js : List Nat), (∀ j ∈ js, j ∈ nbrs.getD i []) →
            ∀ (acc : List (List Char) × List Nat), acc.2 = vis ++ [i] →
            (∀ v ∈ acc.1, v ∈ found ∨ (v ∈ wl.words ∧ ∃ p, isPath nbrs board.length p = true
              ∧ traceOf board p = v ∧ hasExt nbrs p = true)) →
            ∀ v ∈ (js.foldl (fun acc j =>
                find wl board nbrs fuel wp hi j acc.2 (pfx ++ chunk (board.getD i ' ')) acc.1)
              acc).1,
              v ∈ found ∨ (v ∈ wl.words ∧ ∃ p, isPath nbrs board.length p = true
                ∧ traceOf board p = v ∧ hasExt nbrs p = true) := by
          intro js
          induction js with
          | nil => intro _ acc _ hacc v hvr; exact hacc v hvr
          | cons j js ihj =>
            intro hjs acc hacc2 hacc1 v hvr
            rw [List.foldl_cons] at hvr
            refine ihj (fun j' hj' => hjs j' (List.mem_cons_of_mem j hj')) _ ?_ ?_ v hvr
            · rw [find_visited, hacc2]
            · intro u hu
              have hj : j ∈ nbrs.getD i [] := hjs j (List.mem_cons_self j js)
              have := ih wp hi j acc.2 (pfx ++ chunk (board.getD i ' ')) acc.1
                (Or.inr ⟨by rw [hacc2]; exact hpath1, by rw [hacc2]; exact htr1,
                  by rw [hacc2, hlast1]; exact hj⟩)
                (hnb i j hj) u hu
              rcases this with h1 | h1
              · exact hacc1 u h1
              · exact Or.inr h1
        exact hB (nbrs.getD i []) (fun _ h => h) _ rfl hA w hw

theorem foldl_find_mono (wl : Wordlist) (board : List Char) (nbrs : List (List Nat))
    (fuel wp hi : Nat) (pfx1 : List Char) :
    ∀ (js : List Nat) (acc : List (List Char) × List Nat) (w : List Char), w ∈ acc.1 →
      w ∈ (js.foldl (fun acc j =>
          find wl board nbrs fuel wp hi j acc.2 pfx1 acc.1) acc).1 := by
  intro js
  induction js with
  | nil => intro acc w hw; exact hw
  | cons j js ihj =>
    intro acc w hw
    rw [List.foldl_cons]
    exact ihj _ w (find_found_mono wl board nbrs fuel wp hi j acc.2 pfx1 acc.1 w hw)

theorem find_records (wl : Wordlist) (board : List Char) (nbrs : List (List Nat))
    {fuel lo hi i : Nat} {vis : List Nat} {pfx : List Char} {found : List (List Char)} {wp : Nat}
    (hfuel : 1 ≤ fuel) (hv : i ∉ vis)
    (hl : wl.lookup pfx lo (some hi) = (some wp, true)) :
    pfx ∈ (find wl board nbrs fuel lo hi i vis pfx found).1 := by
  obtain ⟨f, rfl⟩ : ∃ f, fuel = f + 1 := ⟨fuel - 1, by omega⟩
  rw [find, if_neg hv, hl]
  simp only [if_pos]
  apply foldl_find_mono
  exact mem_addFound_self found pfx

theorem foldl_find_reach (wl : Wordlist) (board : List Char) (nbrs : List (List Nat))
    (fuel wp hi : Nat) (pfx1 : List Char) (vis1 : List Nat) (w : List Char) (jx : Nat) :
    ∀ (js : List Nat), jx ∈ js →
      (∀ f, w ∈ (find wl board nbrs fuel wp hi jx vis1 pfx1 f).1) →
      ∀ acc : List (List Char) × List Nat, acc.2 = vis1 →
        w ∈ (js.foldl (fun acc j =>
            find wl board nbrs fuel wp hi j acc.2 pfx1 acc.1) acc).1 := by
  intro js
  induction js with
  | nil => intro h; cases h
  | cons j js ihj =>
    intro hmem hstep acc hacc
    rw [List.foldl_cons]
    rcases List.mem_cons.mp hmem with rfl | hmem2
    · apply foldl_find_mono
      rw [hacc]
      exact hstep acc.1
    · exact ihj hmem2 hstep _ (by rw [find_visited, hacc])

theorem not_mem_of_nodup_append_cons {vis l : List Nat} {i : Nat}
    (h : (vis ++ i :: l).Nodup) : i ∉ vis := by
  intro hmem
  rw [List.nodup_append] at h
  exact h.2.2 hmem (List.mem_cons_self i l)

/-- Completeness invariant of `find`: if the remaining cells `i :: rest`
continue the already-visited path so that the whole path traces the dictionary
word stored at `idxw`, the path stays simple and adjacent, its last cell has an
off-path neighbor, and the range `[lo, hi)` still brackets `idxw`, then with
enough fuel the word ends up in the found set. -/
theorem find_complete (wl : Wordlist) (board : List Char) (nbrs : List (List Nat))
    (hs : SortedW wl.words) (w : List Char) (idxw hi : Nat)
    (hidx : idxw < wl.words.length) (hweq : wl.words.getD idxw [] = w)
    (hhi : idxw < hi) (hhilen : hi ≤ wl.words.length) :
    ∀ (rest : List Nat) (fuel lo i : Nat) (vis : List Nat) (pfx : List Char)
      (found : List (List Char)),
      rest.length + 2 ≤ fuel →
      (vis ++ i :: rest).Nodup →
      chainAdj nbrs (vis ++ i :: rest) = true →
      traceOf board (vis ++ i :: rest) = w →
      traceOf board vis = pfx →
      (∃ j, j ∈ nbrs.getD ((vis ++ i :: rest).getLast?.getD 0) [] ∧ j ∉ vis ++ i :: rest) →
      lo ≤ idxw →
      w ∈ (find wl board nbrs fuel lo hi i vis pfx found).1 := by
  intro rest
  induction rest with
  | nil =>
    intro fuel lo i vis pfx found hfuel hnd hch htr hpfx hext hlo
    obtain ⟨f, rfl⟩ : ∃ f, fuel = f + 1 := ⟨fuel - 1, by omega⟩
    have hvnotin : i ∉ vis := not_mem_of_nodup_append_cons hnd
    have hpfx1 : pfx ++ chunk (board.getD i ' ') = w := by
      rw [← htr, traceOf_append, hpfx, traceOf_singleton]
    have hsw : swith pfx w = true := by
      rw [← hpfx1]
      exact swith_append pfx _
    obtain ⟨wp, hleq, hwplo, hwple, _, _, _⟩ := lookup_succeeds wl hs hhilen hlo hhi hweq hsw
    rw [find, if_neg hvnotin, hleq]
    simp only []
    obtain ⟨jx, hjmem, hjnot⟩ := hext
    have hlast : ((vis ++ [i]).getLast?.getD 0) = i := by simp
    rw [hlast] at hjmem
    apply foldl_find_reach wl board nbrs f wp hi (pfx ++ chunk (board.getD i ' '))
      (vis ++ [i]) w jx (nbrs.getD i []) hjmem _ _ rfl
    intro f2
    rw [hpfx1]
    obtain ⟨wp2, hleq2, _, _, _⟩ := lookup_exact wl hs hhilen hwple hhi hweq
    exact find_records wl board nbrs (by omega) hjnot hleq2
  | cons r rest ih =>
    intro fuel lo i vis pfx found hfuel hnd hch htr hpfx hext hlo
    obtain ⟨f, rfl⟩ : ∃ f, fuel = f + 1 := ⟨fuel - 1, by omega⟩
    have hvnotin : i ∉ vis := not_mem_of_nodup_append_cons hnd
    have hsw : swith pfx w = true := by
      rw [← htr]
      have : vis ++ i :: r :: rest = vis ++ (i :: r :: rest) := rfl
      rw [this, traceOf_append, hpfx]
      exact swith_append pfx _
    obtain ⟨wp, hleq, hwplo, hwple, _, _, _⟩ := lookup_succeeds wl hs hhilen hlo hhi hweq hsw
    rw [find, if_neg hvnotin, hleq]
    simp only []
    have hchs := chainAdj_suffix nbrs vis (i :: r :: rest) hch
    have hadj : r ∈ nbrs.getD i [] := by
      simp only [chainAdj, Bool.and_eq_true, decide_eq_true_eq] at hchs
      exact hchs.1
    apply foldl_find_reach wl board nbrs f wp hi (pfx ++ chunk (board.getD i ' '))
      (vis ++ [i]) w r (nbrs.getD i []) hadj _ _ rfl
    intro f2
    apply ih f wp r (vis ++ [i]) (pfx ++ chunk (board.getD i ' ')) f2 (by simp at hfuel ⊢; omega)
    · simpa using hnd
    · simpa using hch
    · simpa using htr
    · rw [traceOf_append, hpfx, traceOf_singleton]
    · simpa using hext
    · omega

theorem toNat_ofNat_valid {n : Nat} (h : n < 55296) : (Char.ofNat n).toNat = n := by
  rw [Char.ofNat, dif_pos (Or.inl h)]
  rfl

theorem char_le_toNat {c : Char} (h2 : c ≤ 'Z') : c.toNat ≤ 90 := by
  have h := Char.le_def.mp h2
  exact h

theorem char_lt_succ {c : Char} (h2 : c ≤ 'Z') : c < Char.ofNat (c.toNat + 1) := by
  have hz : c.toNat ≤ 90 := char_le_toNat h2
  have h3 : (Char.ofNat (c.toNat + 1)).toNat = c.toNat + 1 := toNat_ofNat_valid (by omega)
  rw [Char.lt_def]
  show c.val.toNat < (Char.ofNat (c.toNat + 1)).val.toNat
  have h4 : (Char.ofNat (c.toNat + 1)).val.toNat = c.val.toNat + 1 := h3
  omega

theorem wlt_single_cons {c : Char} {tail : List Char} (h : tail ≠ []) :
    wlt [c] (c :: tail) = true := by
  rcases tail with _ | ⟨t, ts⟩
  · exact absurd rfl h
  · simp [wlt]

theorem wlt_cons_single_succ {c : Char} (tail : List Char) (hc : c ≤ 'Z') :
    wlt (c :: tail) [Char.ofNat (c.toNat + 1)] = true := by
  simp [wlt, char_lt_succ hc]

/-- The per-letter bounds of `Wordlist.__init__` bracket the index of every
stored word whose first character is that letter (words have at least two
characters). -/
theorem bounds_bracket (wl : Wordlist) (hs : SortedW wl.words) {c : Char} (hc : c ≤ 'Z')
    {w : List Char} {idxw : Nat} (hidx : idxw < wl.words.length)
    (hweq : wl.words.getD idxw [] = w)
    {tail : List Char} (hw : w = c :: tail) (htail : tail ≠ []) :
    (wl.bounds c).1 ≤ idxw ∧ idxw < (wl.bounds c).2
      ∧ (wl.bounds c).2 ≤ wl.words.length := by
  have hb2 := bisectRight_bounds wl.words [Char.ofNat (c.toNat + 1)] 0 wl.words.length
    (by omega)
  refine ⟨?_, ?_, hb2.2⟩
  · by_contra hlt
    push_neg at hlt
    have hlow := bisectRight_lower wl.words [c] hs 0 wl.words.length (le_refl _) idxw
      (by omega) hlt
    rw [hweq, hw, wlt_single_cons htail] at hlow
    exact absurd hlow (by simp)
  · by_contra hge
    push_neg at hge
    have hup := bisectRight_upper wl.words [Char.ofNat (c.toNat + 1)] hs 0 wl.words.length
      (le_refl _) idxw hge hidx
    rw [hweq, hw] at hup
    have := wlt_asymm (wlt_cons_single_succ tail hc)
    rw [this] at hup
    exact absurd hup (by simp)

theorem traceOf_cons_head (board : List Char) (i0 : Nat) (p : List Nat) :
    ∃ tail, traceOf board (i0 :: p) = board.getD i0 ' ' :: tail := by
  have : traceOf board (i0 :: p) = chunk (board.getD i0 ' ') ++ traceOf board p := rfl
  rw [this, chunk]
  split_ifs with hq
  · exact ⟨'U' :: traceOf board p, by rw [hq]; rfl⟩
  · exact ⟨traceOf board p, rfl⟩

theorem nodup_bounded_length {p : List Nat} {n2 : Nat} (hnd : p.Nodup)
    (hall : ∀ c ∈ p, c < n2) : p.length ≤ n2 := by
  have h1 : p.toFinset ⊆ Finset.range n2 := by
    intro a ha
    rw [List.mem_toFinset] at ha
    rw [Finset.mem_range]
    exact hall a ha
  have h2 := Finset.card_le_card h1
  rw [List.toFinset_card_of_nodup hnd, Finset.card_range] at h2
  exact h2

theorem getD_mem_of_lt {board : List Char} {i : Nat} (h : i < board.length) :
    board.getD i ' ' ∈ board := by
  rw [List.getD_eq_getElem?_getD, List.getElem?_eq_getElem h]
  exact List.getElem_mem h

theorem getD_nil_of_ge {l : List (List Nat)} {i : Nat} (h : l.length ≤ i) :
    l.getD i [] = [] := by
  rw [List.getD_eq_getElem?_getD, List.getElem?_eq_none h]
  rfl

theorem setBoard_fold_mono (wl : Wordlist) (board : List Char) (nbrs : List (List Nat))
    (fuel : Nat) :
    ∀ (is : List Nat) (found : List (List Char)) (w : List Char), w ∈ found →
      w ∈ is.foldl (fun found i =>
          (find wl board nbrs fuel (wl.bounds (board.getD i ' ')).1
            (wl.bounds (board.getD i ' ')).2 i [] [] found).1) found := by
  intro is
  induction is with
  | nil => intro found w hw; exact hw
  | cons i is ihs =>
    intro found w hw
    rw [List.foldl_cons]
    exact ihs _ w (find_found_mono wl board nbrs fuel _ _ i [] [] found w hw)

theorem setBoard_fold_reach (wl : Wordlist) (board : List Char) (nbrs : List (List Nat))
    (fuel : Nat) (w : List Char) (i0 : Nat) :
    ∀ (is : List Nat), i0 ∈ is →
      (∀ f, w ∈ (find wl board nbrs fuel (wl.bounds (board.getD i0 ' ')).1
        (wl.bounds (board.getD i0 ' ')).2 i0 [] [] f).1) →
      ∀ found, w ∈ is.foldl (fun found i =>
          (find wl board nbrs fuel (wl.bounds (board.getD i ' ')).1
            (wl.bounds (board.getD i ' ')).2 i [] [] found).1) found := by
  intro is
  induction is with
  | nil => intro h; cases h
  | cons i is ihs =>
    intro hmem hstep found
    rw [List.foldl_cons]
    rcases List.mem_cons.mp hmem with rfl | hmem2
    · exact setBoard_fold_mono wl board nbrs fuel is _ w (hstep found)
    · exact ihs hmem2 hstep _

/-- C1, amended: for a built dictionary (minimum word length at least 2, as
with the default 3), an upper-case A–Z board of perfect-square size, its
adjacency table, and sufficient fuel, the Found-Words Set of
`set_board`/`find` consists of exactly those dictionary words `w` for which
some simple path of adjacent cells traces `w` (with `Q` expanded to `QU`)
*and* the last cell of that path has at least one further adjacent cell not
on the path.  (The extra final-cell condition is forced: `find` looks up the
accumulated string *before* appending the current cell's letter, so a word is
only recorded when the search steps one cell beyond the word's path.) -/
theorem C1_found_words (input : List (List Char)) (minLen n fuel : Nat) (board : List Char)
    (nbrs : List (List Nat)) (w : List Char)
    (hml : 2 ≤ minLen)
    (hlen : board.length = n * n)
    (hbd : ∀ c ∈ board, 'A' ≤ c ∧ c ≤ 'Z')
    (hfuel : board.length + 2 ≤ fuel)
    (hnbrs : boggle_neighbors board.length = some nbrs) :
    w ∈ setBoardFound (mkWordlist input minLen) board nbrs fuel ↔
      (w ∈ (mkWordlist input minLen).words ∧ ∃ p, isPath nbrs board.length p = true
        ∧ traceOf board p = w ∧ hasExt nbrs p = true) := by
  have hs : SortedW (mkWordlist input minLen).words := sortedW_wordsOf input minLen
  set wl := mkWordlist input minLen with hwl
  obtain ⟨n2, hn2, hnbrs_eq⟩ := boggle_neighbors_some hnbrs
  have hnb : ∀ a j, j ∈ nbrs.getD a [] → j < board.length := by
    intro a j hj
    rcases Nat.lt_or_ge a board.length with ha | ha
    · rw [hnbrs_eq, getD_map_range _ ha] at hj
      exact neighborsRow_lt hn2.symm ha hj
    · rw [hnbrs_eq, getD_nil_of_ge (by simpa using ha)] at hj
      cases hj
  have hne : ∀ v ∈ wl.words, v ≠ ([] : List Char) := by
    intro v hv hveq
    have hlv := length_of_mem_wordsOf hv
    rw [hveq] at hlv
    simp at hlv
    omega
  constructor
  · intro hw
    rw [setBoardFound] at hw
    have hgen : ∀ (is : List Nat), (∀ i ∈ is, i < board.length) →
        ∀ (found : List (List Char)),
        (∀ v ∈ found, v ∈ wl.words ∧ ∃ p, isPath nbrs board.length p = true
          ∧ traceOf board p = v ∧ hasExt nbrs p = true) →
        ∀ v ∈ is.foldl (fun found i =>
            (find wl board nbrs fuel (wl.bounds (board.getD i ' ')).1
              (wl.bounds (board.getD i ' ')).2 i [] [] found).1) found,
          v ∈ wl.words ∧ ∃ p, isPath nbrs board.length p = true
            ∧ traceOf board p = v ∧ hasExt nbrs p = true := by
      intro is
      induction is with
      | nil => intro _ found hf v hv; exact hf v hv
      | cons i is ihs =>
        intro his found hf v hv
        rw [List.foldl_cons] at hv
        refine ihs (fun i2 h => his i2 (List.mem_cons_of_mem i h)) _ ?_ v hv
        intro u hu
        have hres := find_sound wl board nbrs hnb hne fuel
          (wl.bounds (board.getD i ' ')).1 (wl.bounds (board.getD i ' ')).2 i [] [] found
          (Or.inl ⟨rfl, rfl⟩) (his i (List.mem_cons_self i is)) u hu
        rcases hres with h1 | h1
        · exact hf u h1
        · exact h1
    exact hgen (List.range board.length) (fun i h => List.mem_range.mp h) []
      (by intro v hv; cases hv) w hw
  · rintro ⟨hmem, p, hpath, htrace, hext⟩
    rw [isPath_iff] at hpath
    obtain ⟨hnep, hall, hnd, hch⟩ := hpath
    rcases hp : p with _ | ⟨i0, prest⟩
    · exact absurd hp hnep
    subst hp
    have hi0 : i0 < board.length := hall i0 (List.mem_cons_self _ _)
    have hc0 := hbd (board.getD i0 ' ') (getD_mem_of_lt hi0)
    obtain ⟨idxw, hidx, hweq⟩ := (mem_iff_getD _ w).mp hmem
    obtain ⟨tail, hwhead⟩ := traceOf_cons_head board i0 prest
    rw [htrace] at hwhead
    have htail : tail ≠ [] := by
      intro ht
      have hlw := length_of_mem_wordsOf hmem
      rw [hwhead, ht] at hlw
      simp at hlw
      omega
    obtain ⟨hblo, hbhi, hble⟩ := bounds_bracket wl hs hc0.2 hidx hweq hwhead htail
    have hplen : prest.length + 2 ≤ fuel := by
      have hlb := nodup_bounded_length hnd hall
      simp at hlb
      omega
    rw [setBoardFound]
    refine setBoard_fold_reach wl board nbrs fuel w i0 (List.range board.length)
      (List.mem_range.mpr hi0) ?_ []
    intro f
    apply find_complete wl board nbrs hs w idxw (wl.bounds (board.getD i0 ' ')).2 hidx hweq
      hbhi hble prest fuel (wl.bounds (board.getD i0 ' ')).1 i0 [] [] f hplen
      (by simpa using hnd) (by simpa using hch) (by simpa using htrace) rfl ?_ hblo
    rw [hasExt_iff] at hext
    simpa using hext

/-- C1 counterexample: on the 2×2 grid `A,T,C,S` with dictionary {CAT, CATS}
(min length 3) the claim demands that CATS be found: CATS is a dictionary
member and is traced by the simple path C(2) → A(0) → T(1) → S(3) on the
size-4 adjacency table.  But the code's found set is exactly {CAT}: CATS is
never recorded, because after tracing C,A,T,S all four cells are on the path
and `find` only records a word when it visits one further cell beyond it. -/
theorem C1_counterexample :
    setBoard (mkWordlist [String.toList "CAT", String.toList "CATS"] 3)
        ['A', 'T', 'C', 'S'] 10 = some [String.toList "CAT"]
    ∧ String.toList "CATS" ∈ (mkWordlist [String.toList "CAT", String.toList "CATS"] 3).words
    ∧ boggle_neighbors 4 = some [[2, 3, 1], [3, 2, 0], [0, 1, 3], [1, 0, 2]]
    ∧ isPath [[2, 3, 1], [3, 2, 0], [0, 1, 3], [1, 0, 2]] 4 [2, 0, 1, 3] = true
    ∧ traceOf ['A', 'T', 'C', 'S'] [2, 0, 1, 3] = String.toList "CATS" := by
  refine ⟨by decide, by decide, by decide, by decide, by decide⟩

/-- Witness for `C1_found_words`: on the same 2×2 scenario the word CAT, whose
path C(2) → A(0) → T(1) leaves cell 3 unused and adjacent to T, is found. -/
theorem C1_found_words_witness :
    ∃ nbrs, boggle_neighbors 4 = some nbrs
      ∧ String.toList "CAT" ∈ setBoardFound
          (mkWordlist [String.toList "CAT", String.toList "CATS"] 3)
          ['A', 'T', 'C', 'S'] nbrs 10 := by
  rcases ht : boggle_neighbors 4 with _ | nbrs
  · exact absurd ht (by decide)
  · refine ⟨nbrs, rfl, ?_⟩
    rw [C1_found_words [String.toList "CAT", String.toList "CATS"] 3 2 10
      ['A', 'T', 'C', 'S'] nbrs (String.toList "CAT") (by omega) (by decide)
      (by decide) (by decide) ht]
    have hN : nbrs = [[2, 3, 1], [3, 2, 0], [0, 1, 3], [1, 0, 2]] := by
      have h2 := ht.symm.trans
        (show boggle_neighbors 4 = some [[2, 3, 1], [3, 2, 0], [0, 1, 3], [1, 0, 2]]
          from by decide)
      exact Option.some.inj h2
    subst hN
    exact ⟨by decide, [2, 0, 1], by decide, by decide, by decide⟩

/-- `BoggleFinder.scores = [0, 0, 0, 0, 1, 2, 3, 5] + [11] * 100`. -/
def boggleScores : List Nat := [0, 0, 0, 0, 1, 2, 3, 5] ++ List.replicate 100 11

/-- `self.scores[len(w)]`: Python list indexing, which raises `IndexError`
beyond the table (length 108), modelled by `Option`. -/
def scoreWord (w : List Char) : Option Nat := boggleScores.get? w.length

/-- `BoggleFinder.score()`: `sum([self.scores[len(w)] for w in self.words()])`
over the found-words set; `none` if any word's length falls off the table. -/
def score (found : List (List Char)) : Option Nat :=
  found.foldr (fun w acc =>
    match scoreWord w, acc with
    | some s, some t => some (s + t)
    | _, _ => none) (some 0)

theorem boggleScores_length : boggleScores.length = 108 := by decide

theorem scoreWord_lt {w : List Char} (h : w.length ≤ 107) :
    scoreWord w = some (boggleScores.getD w.length 0) := by
  rw [scoreWord, List.getD_eq_getElem?_getD]
  rw [List.get?_eq_getElem?, List.getElem?_eq_getElem (by rw [boggleScores_length]; omega)]
  rfl

theorem scoreWord_ge {w : List Char} (h : 108 ≤ w.length) : scoreWord w = none := by
  rw [scoreWord, List.get?_eq_getElem?, List.getElem?_eq_none (by rw [boggleScores_length]; omega)]

/-- C5, amended: `score` adds a per-word point value that depends only on the
word's length — 0 for lengths 0–3, then 1, 2, 3, 5 for lengths 4–7, and 11 for
lengths 8 through 107; it is a pure function of the found set ({CAT, CATS}
scores 0 + 1 = 1).  But the score table has only 108 entries, so a word of
length 108 or more makes `score` raise `IndexError` instead of scoring 11. -/
theorem C5_score :
    ((∀ l, l ≤ 3 → boggleScores.getD l 0 = 0)
      ∧ boggleScores.getD 4 0 = 1 ∧ boggleScores.getD 5 0 = 2
      ∧ boggleScores.getD 6 0 = 3 ∧ boggleScores.getD 7 0 = 5
      ∧ (∀ l, 8 ≤ l → l ≤ 107 → boggleScores.getD l 0 = 11))
    ∧ (∀ found : List (List Char), (∀ w ∈ found, w.length ≤ 107) →
        score found = some ((found.map (fun w => boggleScores.getD w.length 0)).sum))
    ∧ (∀ w : List Char, 108 ≤ w.length → scoreWord w = none)
    ∧ score [String.toList "CAT", String.toList "CATS"] = some 1 := by
  refine ⟨⟨?_, by decide, by decide, by decide, by decide, ?_⟩, ?_, ?_, by decide⟩
  · intro l hl
    interval_cases l <;> decide
  · intro l hl8 hl107
    have h1 : boggleScores.getD l 0 = (List.replicate 100 11).getD (l - 8) 0 := by
      rw [boggleScores, List.getD_eq_getElem?_getD, List.getD_eq_getElem?_getD,
        List.getElem?_append_right (by simp; omega)]
      simp
    rw [h1, List.getD_eq_getElem?_getD, List.getElem?_replicate]
    rw [if_pos (by omega)]
    rfl
  · intro found
    induction found with
    | nil => intro _; rfl
    | cons w ws ih =>
      intro hall
      have hw : w.length ≤ 107 := hall w (List.mem_cons_self w ws)
      have hws := ih (fun v hv => hall v (List.mem_cons_of_mem w hv))
      rw [score, List.foldr_cons]
      rw [score] at hws
      rw [hws, scoreWord_lt hw]
      simp
  · intro w hw
    exact scoreWord_ge hw

/-- Witness for `C5_score`: length 2 scores 0, length 9 scores 11, and the
set {CAT, CATS} scores 1. -/
theorem C5_score_witness :
    boggleScores.getD 2 0 = 0 ∧ boggleScores.getD 9 0 = 11
      ∧ score [String.toList "CAT", String.toList "CATS"] = some 1 := by
  obtain ⟨⟨h0, _, _, _, _, h8⟩, _, _, hcat⟩ := C5_score
  exact ⟨h0 2 (by omega), h8 9 (by omega) (by omega), hcat⟩

/-- C5 counterexample: the claim says every length ≥ 8 scores 11, but scoring
a single word of length 108 is an out-of-range index (`IndexError`), not 11. -/
theorem C5_counterexample :
    score [List.replicate 108 'A'] = none
    ∧ score [List.replicate 108 'A'] ≠ some 11 := by
  refine ⟨by decide, by decide⟩

/-- Instrumented shadow of `find` that records, at every point where the
source observes the visited path — on entry to each (recursive) invocation and
immediately after the push `visited.append(i)` — whether the path is free of
repeated cells, and conjoins the checks of all recursive calls.  Its control
flow (the revisit return, the dead-range return, and the neighbor recursion
with the same narrowed range and extended string) is exactly that of `find`;
the found set is omitted because it never influences control flow, and each
neighbor call receives the pushed path `visited ++ [i]`, which is what `find`
passes it (`find_visited`: every call returns the visited list unchanged). -/
def chkFind (wl : Wordlist) (board : List Char) (nbrs : List (List Nat)) :
    Nat → Nat → Nat → Nat → List Nat → List Char → Bool
  | 0, _, _, _, _, _ => true
  | fuel + 1, lo, hi, i, visited, pfx =>
    decide visited.Nodup &&
    (if i ∈ visited then true
     else
       match wl.lookup pfx lo (some hi) with
       | (none, _) => true
       | (some wordpos, _) =>
         decide (visited ++ [i]).Nodup &&
         (nbrs.getD i []).all (fun j =>
           chkFind wl board nbrs fuel wordpos hi j (visited ++ [i])
             (pfx ++ chunk (board.getD i ' '))))

theorem chkFind_true (wl : Wordlist) (board : List Char) (nbrs : List (List Nat)) :
    ∀ fuel lo hi i vis pfx, vis.Nodup →
      chkFind wl board nbrs fuel lo hi i vis pfx = true := by
  intro fuel
  induction fuel with
  | zero => intros; rfl
  | succ fuel ih =>
    intro lo hi i vis pfx hnd
    rw [chkFind, Bool.and_eq_true]
    refine ⟨by simpa using hnd, ?_⟩
    by_cases hv : i ∈ vis
    · rw [if_pos hv]
    · rw [if_neg hv]
      rcases hl : wl.lookup pfx lo (some hi) with ⟨wpo, isw⟩
      rcases wpo with _ | wp
      · rfl
      · rw [Bool.and_eq_true]
        have hnd1 : (vis ++ [i]).Nodup := nodup_snoc hnd hv
        refine ⟨by simpa using hnd1, ?_⟩
        rw [List.all_eq_true]
        intro j _
        exact ih wp hi j (vis ++ [i]) (pfx ++ chunk (board.getD i ' ')) hnd1

/-- C7: every invocation of `find` returns with the visited path exactly as it
was at entry — on all return paths, including the early returns for a
revisited cell and for an exhausted range — and, starting from a
duplicate-free path, the visited path holds no repeated cell at any
observation point of the search (entry of every recursive invocation, and
right after every push), as recorded by the instrumented `chkFind`. -/
theorem C7_visited_invariants (wl : Wordlist) (board : List Char) (nbrs : List (List Nat))
    (fuel lo hi i : Nat) (vis : List Nat) (pfx : List Char) (found : List (List Char))
    (hnd : vis.Nodup) :
    (find wl board nbrs fuel lo hi i vis pfx found).2 = vis
    ∧ chkFind wl board nbrs fuel lo hi i vis pfx = true :=
  ⟨find_visited wl board nbrs fuel lo hi i vis pfx found,
    chkFind_true wl board nbrs fuel lo hi i vis pfx hnd⟩

/-- Witness for `C7_visited_invariants`: a concrete top-level call on the 2×2
scenario board returns the empty visited path unchanged and checks clean. -/
theorem C7_visited_invariants_witness :
    (find (mkWordlist [String.toList "CAT", String.toList "CATS"] 3) ['A', 'T', 'C', 'S']
        [[2, 3, 1], [3, 2, 0], [0, 1, 3], [1, 0, 2]] 10 0 2 2 [] [] []).2 = []
    ∧ chkFind (mkWordlist [String.toList "CAT", String.toList "CATS"] 3) ['A', 'T', 'C', 'S']
        [[2, 3, 1], [3, 2, 0], [0, 1, 3], [1, 0, 2]] 10 0 2 2 [] [] = true :=
  C7_visited_invariants (mkWordlist [String.toList "CAT", String.toList "CATS"] 3)
    ['A', 'T', 'C', 'S'] [[2, 3, 1], [3, 2, 0], [0, 1, 3], [1, 0, 2]] 10 0 2 2 [] [] []
    (by decide)

/-- `mutate_boggle(board)`: the source draws `i = random.randrange(len(board))`
and a letter from a random die face of `cubes16`
(`random.choice(random.choice(cubes16))`); the two random outcomes are
supplied here as the arguments `i` and `c`.  Returns `(i, oldc)` (what the
source returns) paired with the mutated board (the source mutates in place). -/
def mutate_boggle (board : List Char) (i : Nat) (c : Char) :
    (Nat × Char) × List Char :=
  ((i, board.getD i ' '), board.set i c)

/-- One iteration of the `boggle_hill_climbing` loop: mutate one cell, re-run
the finder, keep the mutation when the new word count strictly exceeds the
best so far (`if new > best`), otherwise write the old letter back
(`board[i] = oldc`). -/
def hillIter (wl : Wordlist) (nbrs : List (List Nat)) (fuel : Nat)
    (acc : List Char × Nat) (d : Nat × Char) : List Char × Nat :=
  let m := mutate_boggle acc.1 d.1 d.2
  let board1 := m.2
  let oldc := m.1.2
  let newScore := (setBoardFound wl board1 nbrs fuel).length
  if acc.2 < newScore then (board1, newScore) else (board1.set d.1 oldc, acc.2)

/-- `boggle_hill_climbing(board, ntimes, verbose)`: start from
`best = len(finder.set_board(board))` (the *number* of found words —
`BoggleFinder.__len__`), run `ntimes = draws.length` mutation iterations, and
return `(board, best)`.  The per-iteration random draws are supplied as the
list `draws`; printing is ignored.  The adjacency construction fails
(`InvalidGridSize`) when the board length is not a perfect square; mutation
preserves the length, so one table serves the whole run (as the source's
cache does). -/
def boggle_hill_climbing (wl : Wordlist) (fuel : Nat) (board : List Char)
    (draws : List (Nat × Char)) : Option (List Char × Nat) :=
  match boggle_neighbors board.length with
  | none => none
  | some nbrs =>
    some (draws.foldl (hillIter wl nbrs fuel)
      (board, (setBoardFound wl board nbrs fuel).length))

theorem set_getD_self {l : List Char} :
    ∀ {i : Nat}, i < l.length → ∀ d, l.set i (l.getD i d) = l := by
  induction l with
  | nil => intro i h d; simp at h
  | cons a l ih =>
    intro i h d
    rcases i with _ | i
    · rfl
    · simp only [List.set_cons_succ, List.getD_cons_succ]
      rw [ih (by simpa using h) d]

theorem getD_set_ne {l : List Char} {i k : Nat} {c d : Char} (h : k ≠ i) :
    (l.set i c).getD k d = l.getD k d := by
  rw [List.getD_eq_getElem?_getD, List.getD_eq_getElem?_getD,
    List.getElem?_set_ne (by omega)]

/-- C9: in an iteration whose mutation is rejected (the re-evaluated word
count does not strictly exceed the best so far), the board at the end of the
iteration is the board the iteration started from, bit for bit; and during the
iteration the single mutated cell is the only cell that ever differs. -/
theorem C9_rollback (wl : Wordlist) (nbrs : List (List Nat)) (fuel : Nat)
    (board : List Char) (best i : Nat) (c : Char) (hi : i < board.length) :
    ((setBoardFound wl (board.set i c) nbrs fuel).length ≤ best →
        hillIter wl nbrs fuel (board, best) (i, c) = (board, best))
    ∧ (∀ k d, k ≠ i → ((board.set i c).getD k d = board.getD k d
        ∧ (hillIter wl nbrs fuel (board, best) (i, c)).1.getD k d = board.getD k d)) := by
  have hstep : hillIter wl nbrs fuel (board, best) (i, c) =
      if best < (setBoardFound wl (board.set i c) nbrs fuel).length
      then (board.set i c, (setBoardFound wl (board.set i c) nbrs fuel).length)
      else (board, best) := by
    rw [hillIter]
    simp only [mutate_boggle]
    by_cases hacc : best < (setBoardFound wl (board.set i c) nbrs fuel).length
    · rw [if_pos hacc, if_pos hacc]
    · rw [if_neg hacc, if_neg hacc, List.set_set, set_getD_self hi]
  constructor
  · intro hrej
    rw [hstep, if_neg (by omega)]
  · intro k d hk
    refine ⟨getD_set_ne hk, ?_⟩
    rw [hstep]
    split_ifs
    · exact getD_set_ne hk
    · rfl

/-- Witness for `C9_rollback` on the 2×2 scenario: mutating cell 0 to `Z`
kills the only word, the mutation is rejected, and the board rolls back. -/
theorem C9_rollback_witness :
    ∃ nbrs, boggle_neighbors 4 = some nbrs ∧
      ((setBoardFound (mkWordlist [String.toList "CAT", String.toList "CATS"] 3)
          (['A', 'T', 'C', 'S'].set 0 'Z') nbrs 10).length ≤ 1 →
        hillIter (mkWordlist [String.toList "CAT", String.toList "CATS"] 3) nbrs 10
          (['A', 'T', 'C', 'S'], 1) (0, 'Z') = (['A', 'T', 'C', 'S'], 1)) := by
  rcases ht : boggle_neighbors 4 with _ | nbrs
  · exact absurd ht (by decide)
  · exact ⟨nbrs, rfl,
      (C9_rollback (mkWordlist [String.toList "CAT", String.toList "CATS"] 3) nbrs 10
        ['A', 'T', 'C', 'S'] 1 0 'Z' (by decide)).1⟩

/-- C2 counterexample: with dictionary {CAT, CATS}, board `A,T,C,S` and zero
iterations, `boggle_hill_climbing` returns the pair `(board, 1)` — `1` being
`len(finder.set_board(board))`, the *count* of found words ({CAT}) — whereas
the score of the returned grid's found set is `0` (a 3-letter word scores
nothing).  So `best_score` is not the length-keyed point total and the
returned number is not the score of the returned grid. -/
theorem C2_counterexample :
    boggle_hill_climbing (mkWordlist [String.toList "CAT", String.toList "CATS"] 3) 10
        ['A', 'T', 'C', 'S'] [] = some (['A', 'T', 'C', 'S'], 1)
    ∧ setBoard (mkWordlist [String.toList "CAT", String.toList "CATS"] 3)
        ['A', 'T', 'C', 'S'] 10 = some [String.toList "CAT"]
    ∧ score [String.toList "CAT"] = some 0 := by
  refine ⟨by decide, by decide, by decide⟩

/-- C2, amended: `boggle_hill_climbing` maintains `best` as the *number of
found words* (`len(finder.set_board(board))`) of the current grid — not the
point score; a mutation is accepted iff the mutated grid's word count strictly
exceeds `best`, and otherwise the old letter is restored; the returned pair is
the final grid together with the word count of its found set. -/
theorem C2_hill_climbing (wl : Wordlist) (fuel : Nat) (board : List Char)
    (draws : List (Nat × Char)) (nbrs : List (List Nat)) (b : List Char) (s : Nat)
    (hdr : ∀ d ∈ draws, d.1 < board.length)
    (hnbrs : boggle_neighbors board.length = some nbrs)
    (hres : boggle_hill_climbing wl fuel board draws = some (b, s)) :
    s = (setBoardFound wl b nbrs fuel).length
    ∧ (∀ (bd : List Char) (bs i : Nat) (c : Char), i < bd.length →
        hillIter wl nbrs fuel (bd, bs) (i, c) =
          if bs < (setBoardFound wl (bd.set i c) nbrs fuel).length
          then (bd.set i c, (setBoardFound wl (bd.set i c) nbrs fuel).length)
          else (bd, bs)) := by
  have hstep : ∀ (bd : List Char) (bs i : Nat) (c : Char), i < bd.length →
      hillIter wl nbrs fuel (bd, bs) (i, c) =
        if bs < (setBoardFound wl (bd.set i c) nbrs fuel).length
        then (bd.set i c, (setBoardFound wl (bd.set i c) nbrs fuel).length)
        else (bd, bs) := by
    intro bd bs i c hi
    rw [hillIter]
    simp only [mutate_boggle]
    by_cases hacc : bs < (setBoardFound wl (bd.set i c) nbrs fuel).length
    · rw [if_pos hacc, if_pos hacc]
    · rw [if_neg hacc, if_neg hacc, List.set_set, set_getD_self hi]
  refine ⟨?_, hstep⟩
  have hinv : ∀ (ds : List (Nat × Char)) (acc : List Char × Nat),
      (∀ d ∈ ds, d.1 < board.length) →
      acc.1.length = board.length →
      acc.2 = (setBoardFound wl acc.1 nbrs fuel).length →
      ((ds.foldl (hillIter wl nbrs fuel) acc).1.length = board.length
        ∧ (ds.foldl (hillIter wl nbrs fuel) acc).2
            = (setBoardFound wl (ds.foldl (hillIter wl nbrs fuel) acc).1 nbrs fuel).length) := by
    intro ds
    induction ds with
    | nil => intro acc _ h1 h2; exact ⟨h1, h2⟩
    | cons d ds ihd =>
      intro acc hds h1 h2
      rw [List.foldl_cons]
      have hd1 : d.1 < acc.1.length := by
        rw [h1]
        exact hds d (List.mem_cons_self d ds)
      have hd : hillIter wl nbrs fuel acc d =
          if acc.2 < (setBoardFound wl (acc.1.set d.1 d.2) nbrs fuel).length
          then (acc.1.set d.1 d.2, (setBoardFound wl (acc.1.set d.1 d.2) nbrs fuel).length)
          else (acc.1, acc.2) := hstep acc.1 acc.2 d.1 d.2 hd1
      refine ihd _ (fun e he => hds e (List.mem_cons_of_mem d he)) ?_ ?_
      · rw [hd]
        split_ifs
        · simp [h1]
        · exact h1
      · rw [hd]
        split_ifs
        · rfl
        · exact h2
  rw [boggle_hill_climbing, hnbrs] at hres
  simp only [Option.some_inj] at hres
  have := hinv draws (board, (setBoardFound wl board nbrs fuel).length) hdr rfl rfl
  rw [hres] at this
  exact this.2

/-- Witness for `C2_hill_climbing`: with no iterations on the 2×2 scenario the
returned number, 1, is the word count of the returned board's found set. -/
theorem C2_hill_climbing_witness :
    ∃ nbrs, boggle_neighbors 4 = some nbrs ∧
      1 = (setBoardFound (mkWordlist [String.toList "CAT", String.toList "CATS"] 3)
        ['A', 'T', 'C', 'S'] nbrs 10).length := by
  rcases ht : boggle_neighbors 4 with _ | nbrs
  · exact absurd ht (by decide)
  · refine ⟨nbrs, rfl, ?_⟩
    exact (C2_hill_climbing (mkWordlist [String.toList "CAT", String.toList "CATS"] 3) 10
      ['A', 'T', 'C', 'S'] [] nbrs ['A', 'T', 'C', 'S'] 1 (by simp) ht (by decide)).1

end Boggle
